import Mathlib

/-!
Verification of the uxkit-js declaration-extraction and binding-generation
pipeline (`scripts/generate-ts-api.ts`, `scripts/format-ts-file.ts`).

The TypeScript sources are embedded shallowly: strings are handled as
`String` / `List Char`, the specific JavaScript regular expressions used by
the source are realised as deterministic scanners with the same matching
semantics (leftmost match, greedy / lazy quantifier behaviour worked out per
pattern, global scans resuming after each match), and the pieces of code that
only *emit* text are modelled by structured emission records.
-/

namespace UXKit

/-! ## JavaScript character classes and string helpers

JS `\w` is `[A-Za-z0-9_]`; JS `\s` includes space, tab, newline, carriage
return, vertical tab and form feed (the Unicode additions are irrelevant to
the header syntax handled by the generator). -/

def isWordChar (c : Char) : Bool :=
  c.isAlpha || c.isDigit || c = '_'

def isSpaceChar (c : Char) : Bool :=
  c = ' ' || c = '\t' || c = '\n' || c = '\r' || c = '\x0b' || c = '\x0c'

/-- `String.prototype.trim()` on the character-list level. -/
def jsTrimL (l : List Char) : List Char :=
  ((l.dropWhile isSpaceChar).reverse.dropWhile isSpaceChar).reverse

/-- `String.prototype.trim()`. -/
def jsTrim (s : String) : String :=
  String.mk (jsTrimL s.data)

/-- Is `pat` a prefix of `l`? (used for JS `startsWith` and substring search). -/
def leadsWith : List Char → List Char → Bool
  | [], _ => true
  | _ :: _, [] => false
  | a :: as, b :: bs => a = b && leadsWith as bs

/-- JS `String.prototype.includes(pat)`: `pat` occurs somewhere in `l`. -/
def containsSubL (pat : List Char) : List Char → Bool
  | [] => leadsWith pat []
  | c :: rest => leadsWith pat (c :: rest) || containsSubL pat rest

def containsSub (s pat : String) : Bool :=
  containsSubL pat.data s.data

/-- JS `String.prototype.replace(pat, repl)` with a *string* pattern:
replaces only the first occurrence. -/
def replaceFirstL (pat repl : List Char) : List Char → List Char
  | [] => []
  | c :: rest =>
    if leadsWith pat (c :: rest) && pat ≠ [] then
      repl ++ (c :: rest).drop pat.length
    else
      c :: replaceFirstL pat repl rest

def replaceFirst (s pat repl : String) : String :=
  String.mk (replaceFirstL pat.data repl.data s.data)

/-- JS `String.prototype.endsWith` for a single character. -/
def endsWithChar (l : List Char) (c : Char) : Bool :=
  match l.getLast? with
  | some d => d = c
  | none => false

/-- JS `String.prototype.startsWith`. -/
def startsWithStr (s pat : String) : Bool :=
  leadsWith pat.data s.data

/-- JS `String.prototype.split` with a single-character separator. -/
def splitOnCharAux (sep : Char) : List Char → List Char → List (List Char)
  | acc, [] => [acc.reverse]
  | acc, c :: rest =>
    if c = sep then acc.reverse :: splitOnCharAux sep [] rest
    else splitOnCharAux sep (c :: acc) rest

def jsSplitOnChar (s : String) (sep : Char) : List String :=
  (splitOnCharAux sep [] s.data).map String.mk

/-- JS `Array.prototype.join(sep)`. -/
def joinSep (sep : String) : List String → String
  | [] => ""
  | [x] => x
  | x :: xs => x ++ sep ++ joinSep sep xs

/-- Strip one trailing `;` (the generator's `if (s.endsWith(";")) s.slice(0,-1)`). -/
def stripTrailingSemi (s : String) : String :=
  if endsWithChar s.data ';' then String.mk s.data.dropLast else s

/-- First-occurrence association lookup, the behaviour of indexing a JS
`Record<string, string>` built by the source's literal object syntax. -/
def tableLookup (tbl : List (String × String)) (k : String) : Option String :=
  match tbl.find? (fun e => e.1 = k) with
  | some e => some e.2
  | none => none

/-! ## TypeMapper, interface-emission variant

`convertTypeToTypeScript` (generate-ts-api.ts:243-273): a table lookup with
`typeMap[objcType] || objcType` — the fallback for an unrecognized name is the
*name itself* — then an optional `" | null"` suffix. -/

def interfaceTypeTable : List (String × String) :=
  [ ("NSString", "string"), ("NSNumber", "number"), ("NSInteger", "number"),
    ("NSUInteger", "number"), ("BOOL", "boolean"), ("CGFloat", "number"),
    ("double", "number"), ("float", "number"), ("int", "number"),
    ("long", "number"), ("char", "string"), ("id", "any"),
    ("instancetype", "any"), ("void", "void"), ("NSArray", "Array<any>"),
    ("NSDictionary", "Record<string, any>"), ("NSSet", "Set<any>"),
    ("NSImage", "any"), ("SEL", "string") ]

def convertTypeToTypeScript (objcType : String) (isNullable : Bool) : String :=
  let tsType :=
    match tableLookup interfaceTypeTable objcType with
    | some t => t
    | none => objcType
  if isNullable then tsType ++ " | null" else tsType

/-! ## TypeMapper, class-emission variant

`convertObjCTypeToTypeScriptString` (generate-ts-api.ts:1432-1472): empty
input gives `"void"`; nullability is detected by a substring test for
`nullable` / `_Nullable`; the first occurrence of each nullability token is
removed, the string trimmed, one trailing `*` stripped; then a table lookup
whose fallback is the opaque reference type `"id"`. -/

def classTypeTable : List (String × String) :=
  [ ("void", "void"), ("BOOL", "boolean"), ("NSInteger", "number"),
    ("NSUInteger", "number"), ("CGFloat", "number"), ("double", "number"),
    ("float", "number"), ("int", "number"), ("NSString*", "string"),
    ("id", "id") ]

/-- The cleaned-up key the class-emission converter looks up:
`objcType.replace("nullable","").replace("_Nullable","").trim()` with one
trailing `*` removed. -/
def classTypeKey (objcType : String) : String :=
  let cleanType := jsTrim (replaceFirst (replaceFirst objcType "nullable" "") "_Nullable" "")
  if cleanType.data ≠ [] ∧ endsWithChar cleanType.data '*' then
    String.mk cleanType.data.dropLast
  else cleanType

def convertObjCTypeToTypeScriptString (objcType : String) : String :=
  if objcType = "" then "void"
  else
    let isNullable := containsSub objcType "nullable" || containsSub objcType "_Nullable"
    let cleanType := classTypeKey objcType
    let tsType :=
      match tableLookup classTypeTable cleanType with
      | some t => t
      | none => "id"
    if isNullable then tsType ++ " | null" else tsType

/-! ## Generated-file imports

`buildFile` (second document of generate-ts-api.ts, lines 1492-1517) and the
identical inline code in `main` (lines 896-913): every generated file first
imports the runtime bridge (`import objc from "objc"`), then the `id` type
from `../objc.ts`, and — whenever the class record carries a truthy (i.e.
nonempty) superclass name — the superclass's generated module
`./<Superclass>.ts`.  The presence of the superclass in the extraction set is
never consulted. -/

structure ImportDecl where
  defaultImport : Option String
  namedImports : List String
  moduleSpecifier : String
deriving DecidableEq, Repr

structure ObjCClassHeader where
  name : String
  superclass : String
  protocols : List String
deriving DecidableEq, Repr

def buildFileImports (c : ObjCClassHeader) : List ImportDecl :=
  [ { defaultImport := some "objc", namedImports := [], moduleSpecifier := "objc" },
    { defaultImport := none, namedImports := ["id"], moduleSpecifier := "../objc.ts" } ]
  ++ (if c.superclass ≠ "" then
        [ { defaultImport := none, namedImports := [c.superclass],
            moduleSpecifier := "./" ++ c.superclass ++ ".ts" } ]
      else [])

/-- The import of the runtime bridge module. -/
def isBridgeImport (i : ImportDecl) : Bool :=
  i.moduleSpecifier = "objc" && i.defaultImport = some "objc"

/-- An import of the superclass's generated module by the name-derived path
convention. -/
def isSuperclassImport (c : ObjCClassHeader) (i : ImportDecl) : Bool :=
  i.moduleSpecifier = "./" ++ c.superclass ++ ".ts"

/-! ## SignatureParser, property variant

`parsePropertyDeclaration` (generate-ts-api.ts:517-595).  The declaration is
trimmed, a trailing `;` stripped, then matched against
`/(@property\s*(?:\([^)]+\))?\s*[^;]+?)(?:\s+API_|\s*$)/`.  The scanners below
realise that regex's backtracking order exactly: the two `\s*` are greedy, the
optional attribute-parenthesis group is preferred when it matches, `[^;]+?` is
lazy (smallest length first), and the continuation is `\s+API_` or `\s*$`. -/

def spaceRun (l : List Char) : Nat :=
  (l.takeWhile isSpaceChar).length

/-- The continuation `(?:\s+API_|\s*$)` of the basic-property regex. -/
def contAfterBasic (l : List Char) : Bool :=
  (decide (1 ≤ spaceRun l) && leadsWith "API_".data (l.drop (spaceRun l)))
    || l.all isSpaceChar

/-- The lazy `[^;]+?` followed by `contAfterBasic`: the least length `j ≥ 1`
of non-`;` characters after which the continuation matches. -/
def lazyBodyEnd (l : List Char) : Option Nat :=
  let maxLen := (l.takeWhile (fun c => c ≠ ';')).length
  (List.range (maxLen + 1)).find? (fun j => decide (1 ≤ j) && contAfterBasic (l.drop j))

/-- The group `\(([^)]+)\)` at the head of `l`: number of characters consumed
(inner length plus the two parentheses). -/
def parenGroupLen (l : List Char) : Option Nat :=
  match l with
  | '(' :: rest =>
    let inner := rest.takeWhile (fun c => c ≠ ')')
    if 1 ≤ inner.length ∧ inner.length < rest.length then some (inner.length + 2)
    else none
  | _ => none

/-- Matches `\s*(?:\([^)]+\))?\s*[^;]+?(?:\s+API_|\s*$)` against `l` (the text
after a literal `@property`), returning the number of characters the
*captured* part consumes (through the end of the lazy body).  Greedy stars try
the longest run first; the optional group is preferred when present. -/
def basicPropertyTail (l : List Char) : Option Nat :=
  let m := spaceRun l
  ((List.range (m + 1)).map (fun i => m - i)).findSome? (fun s1 =>
    let l1 := l.drop s1
    let withParen :=
      match parenGroupLen l1 with
      | some g =>
        let l2 := l1.drop g
        let m2 := spaceRun l2
        ((List.range (m2 + 1)).map (fun i => m2 - i)).findSome? (fun s2 =>
          (lazyBodyEnd (l2.drop s2)).map (fun j => s1 + g + s2 + j))
      | none => none
    match withParen with
    | some n => some n
    | none =>
      let m2 := spaceRun l1
      ((List.range (m2 + 1)).map (fun i => m2 - i)).findSome? (fun s2 =>
        (lazyBodyEnd (l1.drop s2)).map (fun j => s1 + s2 + j)))

/-- Leftmost match of the basic-property regex; returns capture group 1
(from `@property` through the lazy body). -/
def basicPropertyScan : List Char → Option (List Char)
  | [] => none
  | c :: rest =>
    if leadsWith "@property".data (c :: rest) then
      match basicPropertyTail ((c :: rest).drop 9) with
      | some n => some ((c :: rest).take (9 + n))
      | none => basicPropertyScan rest
    else basicPropertyScan rest

/-- Leftmost match of `/@property\s*\(([^)]+)\)/`; returns the inner
attribute list text. -/
def attributesScan : List Char → Option (List Char)
  | [] => none
  | c :: rest =>
    if leadsWith "@property".data (c :: rest) then
      let l1 := (c :: rest).drop 9
      let l2 := l1.drop (spaceRun l1)
      match parenGroupLen l2 with
      | some g => some ((l2.drop 1).take (g - 2))
      | none => attributesScan rest
    else attributesScan rest

/-- Length of the first match of `/@property\s*(?:\([^)]+\))?\s*/` when it
starts at the head of `l`. -/
def propertyPrefixLen (l : List Char) : Option Nat :=
  if leadsWith "@property".data l then
    let l1 := l.drop 9
    let s1 := spaceRun l1
    match parenGroupLen (l1.drop s1) with
    | some g =>
      let l2 := (l1.drop s1).drop g
      some (9 + s1 + g + spaceRun l2)
    | none => some (9 + s1)
  else none

/-- `basicProperty.replace(/@property\s*(?:\([^)]+\))?\s*/, "")`: removes the
first match, keeps everything else. -/
def stripPropertyPrefixScan : List Char → List Char
  | [] => []
  | c :: rest =>
    match propertyPrefixLen (c :: rest) with
    | some n => (c :: rest).drop n
    | none => c :: stripPropertyPrefixScan rest

/-- The match of `/(\w+)$/`: the maximal trailing word run, if nonempty. -/
def lastWordScan (l : List Char) : Option (List Char) :=
  let r := (l.reverse.takeWhile isWordChar).reverse
  if r = [] then none else some r

structure ObjCPropertyRec where
  pname : String
  ptype : String
  isReadOnly : Bool
  isNullable : Bool
  attributes : List String
deriving DecidableEq, Repr

/-- The best-effort result the catch-block returns on any parse failure:
empty name, opaque type `id`, not readonly, not nullable, no attributes. -/
def minimalProperty : ObjCPropertyRec :=
  { pname := "", ptype := "id", isReadOnly := false, isNullable := false,
    attributes := [] }

def parsePropertyDeclaration (propertyDeclaration : String) : ObjCPropertyRec :=
  let d := stripTrailingSemi (jsTrim propertyDeclaration)
  match basicPropertyScan d.data with
  | none => minimalProperty
  | some g1 =>
    let basicProperty := jsTrimL g1
    let attributes :=
      match attributesScan basicProperty with
      | some inner => (jsSplitOnChar (String.mk inner) ',').map jsTrim
      | none => []
    let isReadOnly := attributes.contains "readonly"
    let typeAndName := jsTrimL (stripPropertyPrefixScan basicProperty)
    match lastWordScan typeAndName with
    | none => minimalProperty
    | some nm =>
      let typeWithAsterisk :=
        jsTrim (String.mk (typeAndName.take (typeAndName.length - nm.length)))
      let isNullable :=
        containsSub typeWithAsterisk "*" || containsSub typeWithAsterisk "nullable"
          || containsSub typeWithAsterisk "_Nullable"
      let cleanType :=
        jsTrim (replaceFirst (replaceFirst (replaceFirst typeWithAsterisk
          "nullable" "") "_Nullable" "") "*" "")
      { pname := String.mk nm, ptype := cleanType, isReadOnly := isReadOnly,
        isNullable := isNullable, attributes := attributes }

/-- The failure condition of the `try` body of `parsePropertyDeclaration`:
either the basic-property regex does not match, or no trailing word run
yields a property name.  These are the only two `throw` sites. -/
def parsePropertyFails (propertyDeclaration : String) : Bool :=
  let d := stripTrailingSemi (jsTrim propertyDeclaration)
  match basicPropertyScan d.data with
  | none => true
  | some g1 =>
    let basicProperty := jsTrimL g1
    let typeAndName := jsTrimL (stripPropertyPrefixScan basicProperty)
    match lastWordScan typeAndName with
    | none => true
    | some _ => false

/-! ## Property accessor synthesis

The property-processing loop of `main` (generate-ts-api.ts:939-983) and the
equivalent `buildProperty` (lines 1576-1611): a property whose name failed to
parse is skipped; otherwise a public getter is added whose body forwards the
getter selector to the bridge, and — only when the property is not read-only —
a setter forwarding `set<Name>:`. -/

/-- Expressions of the emitted TypeScript, at the granularity the generator
produces them: `<ClassName>.Class`, `this.pointer`, and
`objc.msgSend(target, selector, ...args)` — the arguments the generator ever
passes are plain identifiers, recorded by name. -/
inductive TExpr where
  | classObj (cls : String)
  | self
  | msgSend (target : TExpr) (selector : String) (args : List String)
deriving DecidableEq, Repr

inductive TStmt where
  | superCall
  | assignPointer (e : TExpr)
deriving DecidableEq, Repr

/-- Parameter shapes of emitted method declarations: a plain positional list
(name, type, optional flag), the single destructured object parameter used by
multi-parameter overload signatures, or the all-optional union parameter list
of a dispatch implementation (which additionally takes `...args: any[]`). -/
inductive ParamShape where
  | positional (ps : List (String × String × Bool))
  | destructured (ps : List (String × String × Bool))
  | implUnion (ps : List (String × String))
deriving DecidableEq, Repr

/-- One member of an emitted class.  A `methodDecl` with `hasBody = false` is
an overload signature; the body of a dispatch implementation is modelled
separately by `dispatchOverload`. -/
inductive ClassMember where
  | propertyDecl (name : String) (ptype : Option String)
      (initializer : Option String) (isStatic : Bool) (isReadonly : Bool)
      (scope : String)
  | getAccessor (name : String) (returnType : String) (body : TExpr)
  | setAccessor (name : String) (paramName : String) (paramType : String)
      (body : TExpr)
  | ctorDecl (body : List TStmt)
  | methodDecl (name : String) (isStatic : Bool) (returnType : String)
      (shape : ParamShape) (hasBody : Bool)
deriving DecidableEq, Repr

def ClassMember.isSetAccessorNamed (m : ClassMember) (n : String) : Bool :=
  match m with
  | .setAccessor nm _ _ _ => nm = n
  | _ => false

def ClassMember.isSetAccessor (m : ClassMember) : Bool :=
  match m with
  | .setAccessor _ _ _ _ => true
  | _ => false

/-- `setPropertyName:` — the Objective-C setter selector derived from a
property name
(`"set" + name.charAt(0).toUpperCase() + name.slice(1) + ":"`). -/
def setterSelector (getterName : String) : String :=
  match getterName.data with
  | [] => "set" ++ ":"
  | c :: rest => "set" ++ String.mk (c.toUpper :: rest) ++ ":"

/-- The accessors the property loop emits for one extracted property
(generate-ts-api.ts:940-983; `buildProperty` is identical up to the setter
parameter name).  A property whose name failed to parse is skipped; a getter
forwarding the getter selector is always added; a setter forwarding
`set<Name>:` is added only when the property is not read-only. -/
def emitPropertyAccessors (p : ObjCPropertyRec) : List ClassMember :=
  if p.pname = "" then []
  else
    let tsType := convertObjCTypeToTypeScriptString p.ptype
    let getterName := p.pname
    [ .getAccessor getterName tsType (.msgSend .self getterName []) ]
    ++ (if p.isReadOnly then []
        else
          [ .setAccessor getterName "value" tsType
              (.msgSend .self (setterSelector getterName) ["value"]) ])

/-! ## SignatureParser, method variant

`parseMethodSignature` (generate-ts-api.ts:154-236).  Four regexes drive it:
the first match of `/[+-]\s*\(([\w\s*]+)\)/` (return type), the first match of
`/[+-]\s*\([^)]+\)\s*(\w+(?:With\w+)?)/` (base name; since `\w+` is greedy the
optional `With` suffix group is vacuous and the capture is the maximal word
run), the global matches of `/(\w+):\s*\(([^)]+)\)\s*(\w+)/` (parameters) and
of `/(\w+):/g` (selector components), and `/API_AVAILABLE\(([^)]+)\)/`.  Each
is realised as a scanner with that regex's leftmost / greedy behaviour. -/

def isRetTypeChar (c : Char) : Bool :=
  isWordChar c || isSpaceChar c || c = '*'

/-- `\s*\(([\w\s*]+)\)` after a `+`/`-` sigil. -/
def sigilRetTry (rest : List Char) : Option (List Char) :=
  match rest.drop (spaceRun rest) with
  | '(' :: l2 =>
    let t := l2.takeWhile isRetTypeChar
    match l2.drop t.length with
    | ')' :: _ => if t = [] then none else some t
    | _ => none
  | _ => none

/-- First match of `/[+-]\s*\(([\w\s*]+)\)/`; returns the captured type. -/
def returnTypeScan : List Char → Option (List Char)
  | [] => none
  | c :: rest =>
    if c = '+' ∨ c = '-' then
      match sigilRetTry rest with
      | some t => some t
      | none => returnTypeScan rest
    else returnTypeScan rest

/-- `\s*\([^)]+\)\s*(\w+)` after a `+`/`-` sigil. -/
def sigilNameTry (rest : List Char) : Option (List Char) :=
  match rest.drop (spaceRun rest) with
  | '(' :: l2 =>
    let inner := l2.takeWhile (fun c => c ≠ ')')
    if inner.length = 0 ∨ ¬ inner.length < l2.length then none
    else
      let l3 := l2.drop (inner.length + 1)
      let nm := (l3.drop (spaceRun l3)).takeWhile isWordChar
      if nm = [] then none else some nm
  | _ => none

/-- First match of `/[+-]\s*\([^)]+\)\s*(\w+(?:With\w+)?)/`; the capture is
the maximal word run after the parenthesized group. -/
def methodNameScan : List Char → Option (List Char)
  | [] => none
  | c :: rest =>
    if c = '+' ∨ c = '-' then
      match sigilNameTry rest with
      | some nm => some nm
      | none => methodNameScan rest
    else methodNameScan rest

/-- All matches of `/(\w+):/g`: a maximal word run immediately followed by a
colon; each match is recorded as `run ++ ":"` and scanning resumes after the
colon. -/
def labelScanAux : List Char → List Char → List (List Char)
  | _, [] => []
  | run, c :: rest =>
    if isWordChar c then labelScanAux (c :: run) rest
    else if c = ':' ∧ run ≠ [] then (run.reverse ++ [':']) :: labelScanAux [] rest
    else labelScanAux [] rest

def labelScan (l : List Char) : List (List Char) :=
  labelScanAux [] l

/-- `:\s*\(([^)]+)\)\s*(\w+)` — the tail of one parameter match after the
label's colon.  Returns the captured type and name and the number of
characters consumed after the colon. -/
def tryParamTail (l : List Char) : Option (List Char × List Char × Nat) :=
  let s1 := spaceRun l
  match l.drop s1 with
  | '(' :: l2 =>
    let ty := l2.takeWhile (fun c => c ≠ ')')
    if ty.length = 0 ∨ ¬ ty.length < l2.length then none
    else
      let l4 := l2.drop (ty.length + 1)
      let s2 := spaceRun l4
      let nm := (l4.drop s2).takeWhile isWordChar
      if nm = [] then none
      else some (ty, nm, s1 + 1 + ty.length + 1 + s2 + nm.length)
  | _ => none

/-- All matches of `/(\w+):\s*\(([^)]+)\)\s*(\w+)/g`, as
(label, type, name) triples.  A label-colon whose tail does not match is
passed over and scanning resumes right after the colon, exactly as the JS
engine retries later start positions. -/
def paramScanAux : Nat → List Char → List Char → List (List Char × List Char × List Char)
  | 0, _, _ => []
  | _ + 1, _, [] => []
  | fuel + 1, run, c :: rest =>
    if isWordChar c then paramScanAux fuel (c :: run) rest
    else if c = ':' ∧ run ≠ [] then
      match tryParamTail rest with
      | some (ty, nm, consumed) =>
        (run.reverse, ty, nm) :: paramScanAux fuel [] (rest.drop consumed)
      | none => paramScanAux fuel [] rest
    else paramScanAux fuel [] rest

/-- The fuel only makes the resume-after-match recursion structural; every
step consumes at least one character, so `length + 1` never runs out. -/
def paramScan (l : List Char) : List (List Char × List Char × List Char) :=
  paramScanAux (l.length + 1) [] l

/-- First match of `/API_AVAILABLE\(([^)]+)\)/`. -/
def availScan : List Char → Option (List Char)
  | [] => none
  | c :: rest =>
    if leadsWith "API_AVAILABLE(".data (c :: rest) then
      let l2 := (c :: rest).drop 14
      let inner := l2.takeWhile (fun x => x ≠ ')')
      if 1 ≤ inner.length ∧ inner.length < l2.length then some inner
      else availScan rest
    else availScan rest

structure ObjCParameterRec where
  pname : String
  ptype : String
  isNullable : Bool
  documentation : String
deriving DecidableEq, Repr

structure ObjCMethodRec where
  isClassMethod : Bool
  returnType : String
  mname : String
  parameters : List ObjCParameterRec
  availability : String
deriving DecidableEq, Repr

/-- `parseMethodSignature`: `.error` models the two `throw` sites
(`MalformedSignature`). -/
def parseMethodSignatureE (signature : String) : Except String ObjCMethodRec :=
  let sig := stripTrailingSemi (jsTrim signature)
  let isClassMethod := startsWithStr sig "+"
  match returnTypeScan sig.data with
  | none => .error ("Failed to parse return type from signature: " ++ sig)
  | some rt =>
    match methodNameScan sig.data with
    | none => .error ("Failed to parse method name from signature: " ++ sig)
    | some base =>
      let parameters := (paramScan sig.data).map (fun t =>
        let paramType := jsTrim (String.mk t.2.1)
        { pname := String.mk t.2.2,
          ptype := jsTrim (replaceFirst (replaceFirst paramType "nullable" "") "*" ""),
          isNullable := containsSub paramType "nullable",
          documentation := "" })
      let availability :=
        match availScan sig.data with
        | none => ""
        | some a =>
          let a := String.mk a
          if containsSub a "(" ∧ ¬ endsWithChar a.data ')' then a ++ ")" else a
      let componentNames := labelScan sig.data
      let fullMethodName :=
        match componentNames with
        | [] => jsTrim (String.mk base)
        | _ :: restComps =>
          jsTrim (String.mk base) ++ ":"
            ++ joinSep "" (restComps.map String.mk)
      .ok { isClassMethod := isClassMethod, returnType := jsTrim (String.mk rt),
            mname := fullMethodName, parameters := parameters,
            availability := availability }

/-- Number of colon components of a selector (`:` count). -/
def colonCount (s : String) : Nat :=
  s.data.count ':'

/-! ## OverloadResolver

The grouping loop of `main` (generate-ts-api.ts:1000-1016): methods whose
selector starts with `init` are skipped; the rest are grouped, preserving
insertion order, under the key `(isStatic ? "static_" : "") + base name before
the first colon`. -/

def addToGroup (groups : List (String × List ObjCMethodRec)) (key : String)
    (m : ObjCMethodRec) : List (String × List ObjCMethodRec) :=
  if groups.any (fun g => g.1 = key) then
    groups.map (fun g => if g.1 = key then (g.1, g.2 ++ [m]) else g)
  else groups ++ [(key, [m])]

def methodGroups (methods : List ObjCMethodRec) :
    List (String × List ObjCMethodRec) :=
  methods.foldl (fun groups m =>
    if startsWithStr m.mname "init" then groups
    else
      let methodKey := (if m.isClassMethod then "static_" else "")
        ++ ((jsSplitOnChar m.mname ':').headD "")
      addToGroup groups methodKey m) []

/-! ## CodeSynthesizer: overload dispatch semantics

For a group of size > 1 (generate-ts-api.ts:1075-1241) one implementation is
emitted.  Its named parameters are collected member by member: a one-parameter
member contributes its parameter unconditionally, a multi-parameter member
contributes each parameter not already present.  The emitted body is

    const allArgs = [...args];
    if (p1 !== undefined) allArgs.unshift(p1);
    ... (one line per named parameter, in parameter order)
    if (allArgs.length === n1) return objc.msgSend(target, sel1, ...allArgs);
    else if (allArgs.length === n2) ...
    else throw new Error("Invalid number of arguments for method <base>");

For a call with `k` positional arguments the first `min(k, named)` parameters
are bound and the overflow lands in `args`, so after the `unshift` loop
`allArgs = reverse(firstArgs) ++ overflow` — each defined named parameter is
prepended in declaration order, which *reverses* the caller's order. -/

def implParamsTyped (methods : List ObjCMethodRec) : List (String × String) :=
  methods.foldl (fun acc m =>
    match m.parameters with
    | [] => acc
    | [p] => acc ++ [(p.pname, convertObjCTypeToTypeScriptString p.ptype)]
    | ps => ps.foldl (fun acc2 p =>
        if acc2.any (fun q => q.1 = p.pname) then acc2
        else acc2 ++ [(p.pname, convertObjCTypeToTypeScriptString p.ptype)]) acc) []

def implNamedParams (methods : List ObjCMethodRec) : List String :=
  (implParamsTyped methods).map (fun p => p.1)

/-- `methodNameWithColons`: the selector the dispatch forwards for a member. -/
def selectorWithColons (m : ObjCMethodRec) : String :=
  if containsSub m.mname ":" then m.mname
  else m.mname ++ String.mk (List.replicate m.parameters.length ':')

/-- The dispatch performed by the generated implementation body on a call
with positional arguments `args`: the forwarded selector and forwarded
argument list, or the thrown error message. -/
def dispatchOverload {α : Type} (baseMethodName : String)
    (methods : List ObjCMethodRec) (args : List α) :
    Except String (String × List α) :=
  let n := (implNamedParams methods).length
  let allArgs := (args.take n).reverse ++ args.drop n
  match methods.find? (fun m => m.parameters.length = allArgs.length) with
  | some m => .ok (selectorWithColons m, allArgs)
  | none => .error ("Invalid number of arguments for method " ++ baseMethodName)

/-! ## DocCommentParser

`parseDocumentation` (generate-ts-api.ts:56-147).  The comment is first
cleaned with the global multiline replace
`/\/\*!|\*\/|^\s*\*\s*/gm → ""`, trimmed, split on `/\r?\n/`, each line
trimmed and empty lines dropped.  A single remaining line containing
`@param` takes the inline branch; otherwise a line-by-line state machine
accumulates parameter texts. -/

/-- The cleaning replace.  The boolean argument tracks whether the current
scan position is at a line start (`^` with the `m` flag: position 0 or right
after `\n`/`\r`); the third alternative `^\s*\*\s*` is only tried there, and
its trailing `\s*` may consume line terminators, in which case the following
position is again a line start. -/
def cleanDocAux : Nat → Bool → List Char → List Char
  | 0, _, _ => []
  | _ + 1, _, [] => []
  | fuel + 1, atStart, c :: rest =>
    if leadsWith "/*!".data (c :: rest) then
      cleanDocAux fuel false ((c :: rest).drop 3)
    else if leadsWith "*/".data (c :: rest) then
      cleanDocAux fuel false ((c :: rest).drop 2)
    else if atStart then
      match (c :: rest).drop (spaceRun (c :: rest)) with
      | '*' :: r2 =>
        let s2 := spaceRun r2
        let lastC := if s2 = 0 then '*' else (r2.take s2).getLastD '*'
        cleanDocAux fuel (lastC == '\n' || lastC == '\r') (r2.drop s2)
      | _ => c :: cleanDocAux fuel (c == '\n' || c == '\r') rest
    else c :: cleanDocAux fuel (c == '\n' || c == '\r') rest

/-- The fuel never runs out: every `cleanDocAux` step consumes at least one
character. -/
def cleanDoc (l : List Char) : List Char :=
  cleanDocAux (l.length + 1) true l

/-- Split on `/\r?\n/`: break at every `\n`, dropping one `\r` just before
it.  The accumulator holds the current piece reversed. -/
def splitLinesAux : List Char → List Char → List (List Char)
  | acc, [] => [acc.reverse]
  | acc, c :: rest =>
    if c = '\n' then
      (match acc with
       | '\r' :: accT => accT.reverse
       | _ => acc.reverse) :: splitLinesAux [] rest
    else splitLinesAux (c :: acc) rest

/-- The capture of `/^(.*?)(?=@param|$)/`: everything before the first
`@param`, or the whole line when absent. -/
def takeBeforeSub (pat : List Char) : List Char → List Char
  | [] => []
  | c :: rest =>
    if leadsWith pat (c :: rest) then []
    else c :: takeBeforeSub pat rest

/-- `@param\s+(\w+)\s+([^@]+)` after the literal `@param`: greedy `\s+`
backs off one space at a time until `[^@]+` can match at least one
character. -/
def paramTagTry (l : List Char) : Option (List Char × List Char × Nat) :=
  let s1 := spaceRun l
  if s1 = 0 then none
  else
    let nm := (l.drop s1).takeWhile isWordChar
    if nm = [] then none
    else
      let l2 := l.drop (s1 + nm.length)
      let s2 := spaceRun l2
      (((List.range s2).map (fun i => s2 - i)).findSome? (fun j =>
        let doc := (l2.drop j).takeWhile (fun c => c ≠ '@')
        if doc = [] then none else some (doc, j))).map
        (fun r => (nm, r.1, s1 + nm.length + r.2 + r.1.length))

/-- All matches of `/@param\s+(\w+)\s+([^@]+)/g`. -/
def paramTagScanAux : Nat → List Char → List (List Char × List Char)
  | 0, _ => []
  | _ + 1, [] => []
  | fuel + 1, c :: rest =>
    if leadsWith "@param".data (c :: rest) then
      match paramTagTry ((c :: rest).drop 6) with
      | some (nm, doc, consumed) =>
        (nm, doc) :: paramTagScanAux fuel (((c :: rest).drop 6).drop consumed)
      | none => paramTagScanAux fuel rest
    else paramTagScanAux fuel rest

def paramTagScan (l : List Char) : List (List Char × List Char) :=
  paramTagScanAux (l.length + 1) l

/-- `@return\s+([^@]+)(?=@|$)` after the literal `@return` (the lookahead is
always satisfied at the end of the maximal `[^@]+` run). -/
def returnTagTry (l : List Char) : Option (List Char) :=
  let s2 := spaceRun l
  ((List.range s2).map (fun i => s2 - i)).findSome? (fun j =>
    let doc := (l.drop j).takeWhile (fun c => c ≠ '@')
    if doc = [] then none else some doc)

/-- First match of `/@return\s+([^@]+)(?=@|$)/`. -/
def returnTagScan : List Char → Option (List Char)
  | [] => none
  | c :: rest =>
    if leadsWith "@return".data (c :: rest) then
      match returnTagTry ((c :: rest).drop 7) with
      | some doc => some doc
      | none => returnTagScan rest
    else returnTagScan rest

/-- First match of `/@param\s+(\w+)\s+(.*)/` on one physical line. -/
def paramLineTry (l : List Char) : Option (List Char × List Char) :=
  let s1 := spaceRun l
  if s1 = 0 then none
  else
    let nm := (l.drop s1).takeWhile isWordChar
    if nm = [] then none
    else
      let l2 := l.drop (s1 + nm.length)
      let s2 := spaceRun l2
      if s2 = 0 then none else some (nm, l2.drop s2)

def paramLineScan : List Char → Option (List Char × List Char)
  | [] => none
  | c :: rest =>
    if leadsWith "@param".data (c :: rest) then
      match paramLineTry ((c :: rest).drop 6) with
      | some r => some r
      | none => paramLineScan rest
    else paramLineScan rest

/-- A JS `Record<string, string>` write: update in place if the key exists,
append otherwise. -/
def recordSet (m : List (String × String)) (k v : String) :
    List (String × String) :=
  if m.any (fun e => e.1 = k) then
    m.map (fun e => if e.1 = k then (e.1, v) else e)
  else m ++ [(k, v)]

structure DocState where
  paramDocs : List (String × String)
  returnDoc : String
  mainDocLines : List String
  currentParam : String
  currentParamDoc : String
deriving Repr

/-- One iteration of the multi-line loop. -/
def processDocLine (st : DocState) (line : String) : DocState :=
  if startsWithStr line "@param" then
    let st1 :=
      if st.currentParam ≠ "" then
        { st with
          paramDocs := recordSet st.paramDocs st.currentParam (jsTrim st.currentParamDoc),
          currentParamDoc := "" }
      else st
    match paramLineScan line.data with
    | some r =>
      { st1 with currentParam := String.mk r.1, currentParamDoc := String.mk r.2 }
    | none => st1
  else if startsWithStr line "@return" then
    let st1 :=
      if st.currentParam ≠ "" then
        { st with
          paramDocs := recordSet st.paramDocs st.currentParam (jsTrim st.currentParamDoc),
          currentParam := "", currentParamDoc := "" }
      else st
    { st1 with returnDoc := jsTrim (replaceFirst line "@return" "") }
  else if st.currentParam ≠ "" then
    { st with currentParamDoc := st.currentParamDoc ++ " " ++ line }
  else if ¬ startsWithStr line "@" then
    { st with mainDocLines := st.mainDocLines ++ [line] }
  else st

structure DocResult where
  mainDoc : String
  paramDocs : List (String × String)
  returnDoc : String
deriving DecidableEq, Repr

def parseDocumentation (docComment : String) : DocResult :=
  let cleaned := jsTrimL (cleanDoc docComment.data)
  let lines := ((splitLinesAux [] cleaned).map jsTrimL).filter (fun l => l ≠ [])
  if lines.length = 1 ∧ containsSubL "@param".data (lines.headD []) then
    let single := lines.headD []
    let mainPre := jsTrimL (takeBeforeSub "@param".data single)
    let mainDocLines := if mainPre ≠ [] then [String.mk mainPre] else []
    let paramDocs := (paramTagScan single).foldl
      (fun m (p : List Char × List Char) =>
        recordSet m (String.mk p.1) (jsTrim (String.mk p.2))) []
    let returnDoc :=
      match returnTagScan single with
      | some doc => jsTrim (String.mk doc)
      | none => ""
    { mainDoc := jsTrim (joinSep " " mainDocLines),
      paramDocs := paramDocs, returnDoc := returnDoc }
  else
    let st := lines.foldl (fun st l => processDocLine st (String.mk l))
      { paramDocs := [], returnDoc := "", mainDocLines := [],
        currentParam := "", currentParamDoc := "" }
    let stF :=
      if st.currentParam ≠ "" then
        { st with
          paramDocs := recordSet st.paramDocs st.currentParam (jsTrim st.currentParamDoc) }
      else st
    { mainDoc := jsTrim (joinSep " " stF.mainDocLines),
      paramDocs := stF.paramDocs, returnDoc := stF.returnDoc }

/-! ## CodeSynthesizer: class structure

The class-emission path of `main` (generate-ts-api.ts:916-996 and the method
loop through 1286): every generated class receives, in order, the private
static readonly `Class` property initialized from the bridge's class table,
the protected `pointer` property, one accessor pair per parsed property, a
public constructor whose body sends `alloc` to the class object and `init` to
the result, and then the members produced from the method groups. -/

structure ObjCClassRec where
  cname : String
  superclass : String
  protocols : List String
  properties : List ObjCPropertyRec
  methods : List ObjCMethodRec
deriving Repr

def classStaticMember (className : String) : ClassMember :=
  .propertyDecl "Class" none (some ("objc.classes[\"" ++ className ++ "\"]"))
    true true "private"

def pointerMember : ClassMember :=
  .propertyDecl "pointer" (some "id") none false false "protected"

def constructorMember (className : String) : ClassMember :=
  .ctorDecl
    [ .superCall,
      .assignPointer (.msgSend (.msgSend (.classObj className) "alloc" []) "init" []) ]

/-- `setX:`-shaped recognition (generate-ts-api.ts:1025-1030): starts with
`set`, exactly one parameter, name longer than 4, fourth character equal to
its own upper-case image, and ends with a colon. -/
def isSetterShaped (m : ObjCMethodRec) : Bool :=
  startsWithStr m.mname "set" && m.parameters.length = 1
    && decide (4 < m.mname.length)
    && (let c := m.mname.data.getD 3 ' '; c = c.toUpper)
    && endsWithChar m.mname.data ':'

/-- The accessor name derived from a setter-shaped method
(generate-ts-api.ts:1033-1052): strip `set`, drop the trailing colon,
decapitalize, and replace remaining colons with underscores. -/
def setterPropertyName (m : ObjCMethodRec) : String :=
  let nm := m.mname
  let p0 :=
    if startsWithStr nm "set" then
      match (nm.data.drop 3).take (nm.length - 1 - 3) with
      | [] => []
      | c :: rest => c.toLower :: rest
    else nm.data.take (nm.length - 1)
  String.mk (p0.map (fun c => if c = ':' then '_' else c))

def membersHaveSetAccessor (ms : List ClassMember) (n : String) : Bool :=
  ms.any (fun m => m.isSetAccessorNamed n)

/-- The overload-signature parameter shape for one group member
(generate-ts-api.ts:1094-1126): no parameters, one direct parameter, or one
destructured object parameter. -/
def sigShape (om : ObjCMethodRec) : ParamShape :=
  match om.parameters with
  | [] => .positional []
  | [p] => .positional
      [(p.pname, convertObjCTypeToTypeScriptString p.ptype, p.isNullable)]
  | ps => .destructured
      (ps.map (fun p => (p.pname, convertObjCTypeToTypeScriptString p.ptype, p.isNullable)))

/-- Emits the members for one method group, appended to the members already
on the class (the set-accessor deduplication consults those, including the
setters the property loop produced). -/
def emitGroupMembers (acc : List ClassMember)
    (kv : String × List ObjCMethodRec) : List ClassMember :=
  match kv.2 with
  | [] => acc
  | firstMethod :: _ =>
    let isClassMethod := startsWithStr kv.1 "static_"
    let baseMethodName := replaceFirst kv.1 "static_" ""
    if isSetterShaped firstMethod then
      let propertyName := setterPropertyName firstMethod
      if membersHaveSetAccessor acc propertyName then acc
      else
        acc ++ [ .setAccessor propertyName "value"
            (convertObjCTypeToTypeScriptString
              (match firstMethod.parameters with
               | p :: _ => p.ptype
               | [] => ""))
            (.msgSend .self firstMethod.mname ["value"]) ]
    else if 1 < kv.2.length then
      let sigs := kv.2.map (fun om =>
        ClassMember.methodDecl baseMethodName isClassMethod
          (convertObjCTypeToTypeScriptString om.returnType) (sigShape om) false)
      let impl := ClassMember.methodDecl baseMethodName isClassMethod "any"
        (.implUnion (implParamsTyped kv.2)) true
      acc ++ sigs ++ [impl]
    else
      let methodName := ((jsSplitOnChar firstMethod.mname ':').headD "")
      acc ++ [ ClassMember.methodDecl methodName isClassMethod
          (convertObjCTypeToTypeScriptString firstMethod.returnType)
          (.positional (firstMethod.parameters.map (fun p =>
            (p.pname, convertObjCTypeToTypeScriptString p.ptype, p.isNullable))))
          true ]

def buildClassMembers (c : ObjCClassRec) : List ClassMember :=
  let base :=
    [classStaticMember c.cname, pointerMember]
    ++ c.properties.flatMap emitPropertyAccessors
    ++ [constructorMember c.cname]
  (methodGroups c.methods).foldl emitGroupMembers base

structure GeneratedClass where
  gname : String
  isExported : Bool
  extendsClause : Option String
  members : List ClassMember
deriving Repr

def buildGeneratedClass (c : ObjCClassRec) : GeneratedClass :=
  { gname := c.cname, isExported := true,
    extendsClause := if c.superclass ≠ "" then some c.superclass else none,
    members := buildClassMembers c }

/-! ## OverloadReflow

`groupMethodOverloads` (format-ts-file.ts:17-115) parses the emitted file
with the TypeScript compiler, walks every class, and groups the class's
method declarations — skipping any with a get/set keyword descendant and the
constructor — by (static, name), preserving first-appearance key order.  For
every group with more than one member, exactly one implementation (a member
with a body) and at least one signature (members without bodies), it replaces
the group's first member with the signatures followed by the implementation
and removes the group's other members; otherwise the group is left alone.
The model below is the parsed structure the pass manipulates — a file is a
list of classes, a class a list of method nodes — abstracting ts-morph's
parse/print round trip. -/

structure TsMethodNode where
  isStatic : Bool
  methName : String
  excluded : Bool
  hasBody : Bool
  text : String
deriving DecidableEq, Repr

def nodeKey (m : TsMethodNode) : Bool × String :=
  (m.isStatic, m.methName)

/-- Membership of a node in the group keyed `k` (excluded nodes never are). -/
def inGroup (k : Bool × String) (m : TsMethodNode) : Bool :=
  !m.excluded && m.isStatic == k.1 && m.methName == k.2

/-- The group's members, in document order. -/
def msOf (k : Bool × String) (l : List TsMethodNode) : List TsMethodNode :=
  l.filter (inGroup k)

def sigsOf (k : Bool × String) (l : List TsMethodNode) : List TsMethodNode :=
  (msOf k l).filter (fun m => !m.hasBody)

def implsOf (k : Bool × String) (l : List TsMethodNode) : List TsMethodNode :=
  (msOf k l).filter (fun m => m.hasBody)

/-- `replaceWithText` on the group's first member plus `remove()` on the
others: at the first node satisfying `p`, emit `block` and drop every later
`p`-node, keeping everything else in place. -/
def gatherAt (p : TsMethodNode → Bool) (block : List TsMethodNode) :
    List TsMethodNode → List TsMethodNode
  | [] => []
  | m :: rest =>
    if p m then block ++ rest.filter (fun x => !p x)
    else m :: gatherAt p block rest

/-- One `methodGroups.forEach` iteration. -/
def processGroup (k : Bool × String) (l : List TsMethodNode) :
    List TsMethodNode :=
  if (msOf k l).length ≤ 1 then l
  else if (implsOf k l).length ≠ 1 ∨ (sigsOf k l).length = 0 then l
  else gatherAt (inGroup k) (sigsOf k l ++ implsOf k l) l

/-- First-appearance deduplication (JS `Map` key insertion order). -/
def dedupKeysAux : List (Bool × String) → List (Bool × String) →
    List (Bool × String)
  | _, [] => []
  | seen, k :: rest =>
    if k ∈ seen then dedupKeysAux seen rest
    else k :: dedupKeysAux (k :: seen) rest

def keyList (l : List TsMethodNode) : List (Bool × String) :=
  dedupKeysAux [] ((l.filter (fun m => !m.excluded)).map nodeKey)

def processClassMethods (l : List TsMethodNode) : List TsMethodNode :=
  (keyList l).foldl (fun acc k => processGroup k acc) l

def groupMethodOverloads (file : List (List TsMethodNode)) :
    List (List TsMethodNode) :=
  file.map processClassMethods

/-! ## Well-formed rendered declarations (for the SignatureParser invariant)

A declaration in the `label:(type)name` grammar the generator targets:
`<sigil> (<ret>)<base>` for a zero-argument selector, or
`<sigil> (<ret>)l1:(t1)n1 l2:(t2)n2 ...` where the first label plays the base
name's role. -/

def renderSeg (t : String × String × String) : List Char :=
  t.1.data ++ ':' :: '(' :: t.2.1.data ++ ')' :: t.2.2.data

def renderSegs : List (String × String × String) → List Char
  | [] => []
  | [t] => renderSeg t
  | t :: ts => renderSeg t ++ ' ' :: renderSegs ts

def renderDecl (sigil : Char) (ret base : String)
    (params : List (String × String × String)) : List Char :=
  sigil :: ' ' :: '(' :: ret.data ++ ')' ::
    (if params.isEmpty then base.data else renderSegs params)

/-- A nonempty run of JS word characters. -/
def wordStr (s : String) : Prop :=
  s.data ≠ [] ∧ ∀ c ∈ s.data, isWordChar c = true

/-- A nonempty type text drawn from the `[\w\s*]` alphabet (covering the
idioms the grammar uses: plain names, spaces, pointer stars, `nullable`). -/
def typeStr (s : String) : Prop :=
  s.data ≠ [] ∧ ∀ c ∈ s.data, isRetTypeChar c = true

/-- Well-formedness of one `label:(type)name` parameter segment. -/
def segWF (t : String × String × String) : Prop :=
  wordStr t.1 ∧ typeStr t.2.1 ∧ wordStr t.2.2

/-- A concrete two-parameter method declaration used to instantiate the
signature-parser invariant. -/
def demoSegs : List (String × String × String) :=
  [("doIt", "NSString *", "title"), ("withCount", "NSInteger", "c")]

/-! ## Concrete inputs used by the claims -/

def initFrameMethod : ObjCMethodRec :=
  { isClassMethod := false, returnType := "instancetype",
    mname := "initWithFrame:",
    parameters := [{ pname := "frame", ptype := "NSRect", isNullable := false,
                     documentation := "" }],
    availability := "" }

def initFrameFlagsMethod : ObjCMethodRec :=
  { isClassMethod := false, returnType := "instancetype",
    mname := "initWithFrame:andFlags:",
    parameters := [{ pname := "frame", ptype := "NSRect", isNullable := false,
                     documentation := "" },
                   { pname := "flags", ptype := "NSInteger", isNullable := false,
                     documentation := "" }],
    availability := "" }

def makeFrameMethod : ObjCMethodRec :=
  { initFrameMethod with mname := "makeWithFrame:" }

def makeFrameFlagsMethod : ObjCMethodRec :=
  { initFrameFlagsMethod with mname := "makeWithFrame:andFlags:" }

def soleClassHeader : ObjCClassHeader :=
  { name := "MyButton", superclass := "NSView", protocols := [] }


/-! ## Supporting lemmas -/

theorem takeWhile_append_all {p : Char → Bool} {xs : List Char}
    (ys : List Char) (h : ∀ c ∈ xs, p c = true) :
    (xs ++ ys).takeWhile p = xs ++ ys.takeWhile p := by
  induction xs with
  | nil => rfl
  | cons c rest ih =>
    rw [List.cons_append, List.takeWhile_cons, h c (List.mem_cons_self c rest)]
    rw [ih (fun x hx => h x (List.mem_cons_of_mem c hx))]
    rfl

theorem dropWhile_append_all {p : Char → Bool} {xs : List Char}
    (ys : List Char) (h : ∀ c ∈ xs, p c = true) :
    (xs ++ ys).dropWhile p = ys.dropWhile p := by
  induction xs with
  | nil => rfl
  | cons c rest ih =>
    rw [List.cons_append, List.dropWhile_cons, h c (List.mem_cons_self c rest)]
    rw [ih (fun x hx => h x (List.mem_cons_of_mem c hx))]
    rfl

theorem takeWhile_nil_of_head {p : Char → Bool} {c : Char}
    (l : List Char) (h : p c = false) : (c :: l).takeWhile p = [] := by
  rw [List.takeWhile_cons, h]
  rfl

theorem dropWhile_cons_of_neg {p : Char → Bool} {c : Char}
    (l : List Char) (h : p c = false) : (c :: l).dropWhile p = c :: l := by
  rw [List.dropWhile_cons, h]
  rfl

theorem not_space_of_word {c : Char} (h : isWordChar c = true) :
    isSpaceChar c = false := by
  by_contra hs
  simp only [Bool.not_eq_false] at hs
  unfold isSpaceChar at hs
  simp only [Bool.or_eq_true, decide_eq_true_eq] at hs
  rcases hs with ((((h1 | h1) | h1) | h1) | h1) | h1 <;>
    (subst h1; exact absurd h (by decide))

theorem word_char_ne {c : Char} (h : isWordChar c = true) :
    c ≠ ':' ∧ c ≠ ')' ∧ c ≠ ';' ∧ c ≠ '(' := by
  refine ⟨?_, ?_, ?_, ?_⟩ <;> (intro he; subst he; exact absurd h (by decide))

theorem retchar_ne {c : Char} (h : isRetTypeChar c = true) :
    c ≠ ':' ∧ c ≠ ')' ∧ c ≠ ';' := by
  refine ⟨?_, ?_, ?_⟩ <;> (intro he; subst he; exact absurd h (by decide))

theorem jsTrimL_eq_self_of_ends {l : List Char}
    (hh : ∀ c, l.head? = some c → isSpaceChar c = false)
    (hl : ∀ c, l.getLast? = some c → isSpaceChar c = false) :
    jsTrimL l = l := by
  unfold jsTrimL
  have h1 : l.dropWhile isSpaceChar = l := by
    cases l with
    | nil => rfl
    | cons c rest => exact dropWhile_cons_of_neg rest (hh c rfl)
  rw [h1]
  have h2 : l.reverse.dropWhile isSpaceChar = l.reverse := by
    cases hr : l.reverse with
    | nil => rfl
    | cons c rest =>
      have hc : l.getLast? = some c := by
        rw [← List.head?_reverse, hr]
        rfl
      exact dropWhile_cons_of_neg rest (hl c hc)
  rw [h2, List.reverse_reverse]

theorem jsTrimL_all_word {w : List Char}
    (h : ∀ c ∈ w, isWordChar c = true) : jsTrimL w = w := by
  apply jsTrimL_eq_self_of_ends
  · intro c hc
    exact not_space_of_word (h c (List.mem_of_mem_head? hc))
  · intro c hc
    exact not_space_of_word (h c (List.mem_of_mem_getLast? hc))

theorem length_filter_partition (f : α → Bool) (l : List α) :
    (l.filter f).length + (l.filter (fun x => !f x)).length = l.length := by
  induction l with
  | nil => rfl
  | cons c rest ih =>
    by_cases h : f c = true
    · simp [List.filter_cons, h, ih]
      omega
    · simp only [Bool.not_eq_true] at h
      simp [List.filter_cons, h, ih]
      omega

theorem gatherAt_skip (p : TsMethodNode → Bool) (block : List TsMethodNode)
    {xs : List TsMethodNode} (ys : List TsMethodNode)
    (h : ∀ m ∈ xs, p m = false) :
    gatherAt p block (xs ++ ys) = xs ++ gatherAt p block ys := by
  induction xs with
  | nil => rfl
  | cons c rest ih =>
    have hc : p c = false := h c (List.mem_cons_self c rest)
    simp only [List.cons_append, gatherAt, hc, Bool.false_eq_true, if_false]
    rw [show rest.append ys = rest ++ ys from rfl,
        ih (fun m hm => h m (List.mem_cons_of_mem c hm))]

theorem gatherAt_fire (p : TsMethodNode → Bool) (block : List TsMethodNode)
    {m : TsMethodNode} (r : List TsMethodNode) (hm : p m = true) :
    gatherAt p block (m :: r) = block ++ r.filter (fun x => !p x) := by
  simp [gatherAt, hm]

theorem gatherAt_of_no_match (p : TsMethodNode → Bool)
    (block : List TsMethodNode) {l : List TsMethodNode}
    (h : ∀ m ∈ l, p m = false) : gatherAt p block l = l := by
  induction l with
  | nil => rfl
  | cons c rest ih =>
    have hc : p c = false := h c (List.mem_cons_self c rest)
    simp only [gatherAt, hc, Bool.false_eq_true, if_false]
    rw [ih (fun m hm => h m (List.mem_cons_of_mem c hm))]

theorem mem_gatherAt (p : TsMethodNode → Bool) (block : List TsMethodNode)
    {l : List TsMethodNode} {m : TsMethodNode}
    (h : m ∈ gatherAt p block l) : m ∈ l ∨ m ∈ block := by
  induction l with
  | nil => simp [gatherAt] at h
  | cons c rest ih =>
    by_cases hc : p c = true
    · rw [gatherAt_fire p block rest hc] at h
      rcases List.mem_append.mp h with h | h
      · exact Or.inr h
      · exact Or.inl (List.mem_cons_of_mem c (List.mem_of_mem_filter h))
    · simp only [Bool.not_eq_true] at hc
      simp only [gatherAt, hc, Bool.false_eq_true, if_false, List.mem_cons] at h
      rcases h with h | h
      · exact Or.inl (h ▸ List.mem_cons_self c rest)
      · rcases ih h with h | h
        · exact Or.inl (List.mem_cons_of_mem c h)
        · exact Or.inr h

theorem exists_first_split (p : TsMethodNode → Bool) {l : List TsMethodNode}
    (h : l.filter p ≠ []) :
    ∃ A m r, l = A ++ m :: r ∧ (∀ x ∈ A, p x = false) ∧ p m = true := by
  induction l with
  | nil => simp at h
  | cons c rest ih =>
    by_cases hc : p c = true
    · exact ⟨[], c, rest, rfl, by simp, hc⟩
    · simp only [Bool.not_eq_true] at hc
      have h2 : rest.filter p ≠ [] := by
        simpa [List.filter_cons, hc] using h
      obtain ⟨A, m, r, heq, hA, hm⟩ := ih h2
      refine ⟨c :: A, m, r, by rw [heq]; rfl, ?_, hm⟩
      intro x hx
      rcases List.mem_cons.mp hx with hx | hx
      · exact hx ▸ hc
      · exact hA x hx

theorem gatherAt_canonical (p : TsMethodNode → Bool)
    {block A B : List TsMethodNode}
    (hA : ∀ m ∈ A, p m = false) (hB : ∀ m ∈ B, p m = false)
    (hblock : ∀ m ∈ block, p m = true) (hne : block ≠ []) :
    gatherAt p block (A ++ block ++ B) = A ++ block ++ B := by
  rcases block with _ | ⟨b, bt⟩
  · exact absurd rfl hne
  · rw [List.append_assoc, gatherAt_skip p _ _ hA]
    simp only [List.cons_append]
    rw [gatherAt_fire p _ _ (hblock b (List.mem_cons_self b bt))]
    have hbt : (bt ++ B).filter (fun x => !p x) = B := by
      rw [List.filter_append]
      have h1 : bt.filter (fun x => !p x) = [] := by
        apply List.filter_eq_nil_iff.mpr
        intro a ha
        simp [hblock a (List.mem_cons_of_mem b ha)]
      have h2 : B.filter (fun x => !p x) = B := by
        apply List.filter_eq_self.mpr
        intro a ha
        simp [hB a ha]
      rw [h1, h2, List.nil_append]
    rw [hbt]
    simp [List.append_assoc]

theorem filter_gatherAt_self (p : TsMethodNode → Bool)
    {block l : List TsMethodNode} (h : l.filter p ≠ [])
    (hb : ∀ m ∈ block, p m = true) :
    (gatherAt p block l).filter p = block := by
  obtain ⟨A, m, r, heq, hA, hm⟩ := exists_first_split p h
  subst heq
  rw [gatherAt_skip p block _ hA, gatherAt_fire p block _ hm]
  rw [List.filter_append, List.filter_append]
  have h1 : A.filter p = [] :=
    List.filter_eq_nil_iff.mpr (fun a ha => by simp [hA a ha])
  have h2 : block.filter p = block :=
    List.filter_eq_self.mpr (fun a ha => by simp [hb a ha])
  have h3 : (r.filter (fun x => !p x)).filter p = [] := by
    apply List.filter_eq_nil_iff.mpr
    intro a ha
    have := List.of_mem_filter ha
    simp only [Bool.not_eq_true'] at this
    simp [this]
  rw [h1, h2, h3, List.nil_append, List.append_nil]

theorem filter_gatherAt_disjoint (p q : TsMethodNode → Bool)
    {block : List TsMethodNode} (l : List TsMethodNode)
    (hb : ∀ m ∈ block, p m = true)
    (hq : ∀ m, q m = true → p m = false) :
    (gatherAt p block l).filter q = l.filter q := by
  induction l with
  | nil => rfl
  | cons c rest ih =>
    by_cases hc : p c = true
    · rw [gatherAt_fire p block rest hc]
      rw [List.filter_append]
      have h1 : block.filter q = [] := by
        apply List.filter_eq_nil_iff.mpr
        intro a ha
        intro hqa
        have h2 := hq a (by simpa using hqa)
        rw [hb a ha] at h2
        simp at h2
      have h2 : (rest.filter (fun x => !p x)).filter q = rest.filter q := by
        rw [List.filter_filter]
        apply List.filter_congr
        intro a _
        by_cases hqa : q a = true
        · simp [hqa, hq a hqa]
        · simp only [Bool.not_eq_true] at hqa
          simp [hqa]
      have hcq : q c = false := by
        by_cases hqc : q c = true
        · rw [hq c hqc] at hc
          exact absurd hc Bool.false_ne_true
        · simpa using hqc
      rw [h1, h2, List.nil_append, List.filter_cons, hcq]
      simp
    · simp only [Bool.not_eq_true] at hc
      simp only [gatherAt, hc, Bool.false_eq_true, if_false]
      rw [List.filter_cons, List.filter_cons]
      by_cases hqc : q c = true
      · rw [hqc]
        simp only [if_true]
        rw [ih]
      · simp only [Bool.not_eq_true] at hqc
        rw [hqc]
        simp only [Bool.false_eq_true, if_false]
        rw [ih]

/-- Two different keys never share a member: `inGroup` fixes the node's
(static, name) pair. -/
theorem inGroup_disjoint {k k2 : Bool × String} (hne : k ≠ k2)
    (m : TsMethodNode) (h : inGroup k m = true) : inGroup k2 m = false := by
  by_cases h2 : inGroup k2 m = true
  · exfalso
    apply hne
    unfold inGroup at h h2
    simp only [Bool.and_eq_true, beq_iff_eq, Bool.not_eq_true'] at h h2
    obtain ⟨⟨_, hs1⟩, hn1⟩ := h
    obtain ⟨⟨_, hs2⟩, hn2⟩ := h2
    rcases k with ⟨ks, kn⟩
    rcases k2 with ⟨ks2, kn2⟩
    simp only at hs1 hn1 hs2 hn2
    rw [← hs1, ← hn1, ← hs2, ← hn2]
  · simpa using h2

theorem mem_block_inGroup {k : Bool × String} {l : List TsMethodNode}
    {m : TsMethodNode} (h : m ∈ sigsOf k l ++ implsOf k l) :
    inGroup k m = true := by
  rcases List.mem_append.mp h with h | h
  · exact List.of_mem_filter (List.mem_of_mem_filter h)
  · exact List.of_mem_filter (List.mem_of_mem_filter h)

/-- `processGroup` for another key leaves a group's member list untouched. -/
theorem msOf_processGroup_ne {k k2 : Bool × String} (hne : k ≠ k2)
    (l : List TsMethodNode) : msOf k (processGroup k2 l) = msOf k l := by
  unfold processGroup
  split
  · rfl
  · split
    · rfl
    · unfold msOf
      apply filter_gatherAt_disjoint
      · intro m hm
        exact mem_block_inGroup hm
      · intro m hm
        exact inGroup_disjoint hne m hm

theorem labelScanAux_nil (run : List Char) : labelScanAux run [] = [] := by
  unfold labelScanAux
  rfl

theorem labelScanAux_cons (run : List Char) (c : Char) (rest : List Char) :
    labelScanAux run (c :: rest)
      = if isWordChar c then labelScanAux (c :: run) rest
        else if c = ':' ∧ run ≠ [] then
          (run.reverse ++ [':']) :: labelScanAux [] rest
        else labelScanAux [] rest := by
  conv_lhs => unfold labelScanAux

theorem labelScanAux_words {w : List Char}
    (hw : ∀ c ∈ w, isWordChar c = true) :
    ∀ (acc rest : List Char),
      labelScanAux acc (w ++ rest) = labelScanAux (w.reverse ++ acc) rest := by
  induction w with
  | nil => intro acc rest; rfl
  | cons c w2 ih =>
    intro acc rest
    rw [List.cons_append]
    rw [labelScanAux_cons, if_pos (hw c (List.mem_cons_self c w2)),
      ih (fun x hx => hw x (List.mem_cons_of_mem c hx))]
    congr 1
    simp

theorem labelScanAux_all_word {w : List Char}
    (hw : ∀ c ∈ w, isWordChar c = true) (acc : List Char) :
    labelScanAux acc w = [] := by
  have h := labelScanAux_words hw acc []
  rw [List.append_nil] at h
  rw [h, labelScanAux_nil]

theorem labelScanAux_colon {acc : List Char} (rest : List Char)
    (hacc : acc ≠ []) :
    labelScanAux acc (':' :: rest)
      = (acc.reverse ++ [':']) :: labelScanAux [] rest := by
  rw [labelScanAux_cons]
  rw [if_neg (by decide : ¬ (isWordChar ':' = true))]
  rw [if_pos ⟨rfl, hacc⟩]

theorem labelScanAux_inert {xs : List Char} (hnc : ∀ c ∈ xs, c ≠ ':')
    (hlast : ∀ c, xs.getLast? = some c → isWordChar c = false)
    (hne : xs ≠ []) :
    ∀ (acc rest : List Char),
      labelScanAux acc (xs ++ rest) = labelScanAux [] rest := by
  induction xs with
  | nil => exact absurd rfl hne
  | cons c xs2 ih =>
    intro acc rest
    rw [List.cons_append]
    by_cases hw : isWordChar c = true
    · have hxs2 : xs2 ≠ [] := by
        intro he
        subst he
        have := hlast c (by rfl)
        rw [hw] at this
        exact Bool.true_eq_false.mp this
      rw [labelScanAux_cons, if_pos hw]
      apply ih (fun x hx => hnc x (List.mem_cons_of_mem c hx)) ?_ hxs2
      intro d hd
      apply hlast
      rcases xs2 with _ | ⟨e, xs3⟩
      · exact absurd rfl hxs2
      · rw [List.getLast?_cons_cons]
        exact hd
    · have hcne : c ≠ ':' := hnc c (List.mem_cons_self c xs2)
      rw [labelScanAux_cons, if_neg (by simpa using hw),
        if_neg (fun hx => hcne hx.1)]
      rcases xs2 with _ | ⟨d, xs3⟩
      · rfl
      · apply ih (fun x hx => hnc x (List.mem_cons_of_mem c hx)) ?_ (by simp)
        intro e he
        apply hlast
        rw [List.getLast?_cons_cons]
        exact he

/-- The inert middle `( type )` of one rendered segment. -/
theorem parenChunk_inert {ty : String} (hty : typeStr ty) (rest : List Char) :
    ∀ acc, labelScanAux acc (('(' :: ty.data ++ [')']) ++ rest)
      = labelScanAux [] rest := by
  intro acc
  apply labelScanAux_inert ?_ ?_ (by simp)
  · intro c hc
    rcases List.mem_cons.mp hc with h | h
    · subst h; decide
    · rcases List.mem_append.mp h with h | h
      · exact (retchar_ne (hty.2 c h)).1
      · rcases List.mem_singleton.mp h with h
        subst h; decide
  · intro c hc
    have : (('(' :: ty.data) ++ [')']).getLast? = some ')' :=
      List.getLast?_concat _
    rw [show ('(' :: ty.data ++ [')'] : List Char)
        = ('(' :: ty.data) ++ [')'] by simp] at hc
    rw [this] at hc
    cases hc
    decide

/-- The inert tail `name ` before the next segment. -/
theorem nameSpace_inert {n : String} (hn : wordStr n) (rest : List Char) :
    ∀ acc, labelScanAux acc ((n.data ++ [' ']) ++ rest)
      = labelScanAux [] rest := by
  intro acc
  apply labelScanAux_inert ?_ ?_ ?_
  · intro c hc
    rcases List.mem_append.mp hc with h | h
    · exact (word_char_ne (hn.2 c h)).1
    · rcases List.mem_singleton.mp h with h
      subst h; decide
  · intro c hc
    rw [List.getLast?_concat] at hc
    cases hc
    decide
  · simp

theorem labelScanAux_renderSeg_last (l ty n : String)
    (hl : wordStr l) (hty : typeStr ty) (hn : wordStr n) :
    labelScanAux [] (renderSeg (l, ty, n)) = [l.data ++ [':']] := by
  unfold renderSeg
  dsimp only
  rw [show (l.data ++ ':' :: '(' :: ty.data ++ ')' :: n.data : List Char)
      = l.data ++ (':' :: (('(' :: ty.data ++ [')']) ++ n.data)) by simp]
  rw [labelScanAux_words hl.2]
  rw [labelScanAux_colon _ (by simpa using hl.1)]
  rw [parenChunk_inert hty]
  rw [labelScanAux_all_word hn.2]
  simp

theorem labelScanAux_renderSeg_cons (l ty n : String) (R : List Char)
    (hl : wordStr l) (hty : typeStr ty) (hn : wordStr n) :
    labelScanAux [] (renderSeg (l, ty, n) ++ ' ' :: R)
      = (l.data ++ [':']) :: labelScanAux [] R := by
  unfold renderSeg
  dsimp only
  rw [show ((l.data ++ ':' :: '(' :: ty.data ++ ')' :: n.data) ++ ' ' :: R : List Char)
      = l.data ++ (':' :: (('(' :: ty.data ++ [')']) ++ ((n.data ++ [' ']) ++ R))) by simp]
  rw [labelScanAux_words hl.2]
  rw [labelScanAux_colon _ (by simpa using hl.1)]
  rw [parenChunk_inert hty]
  rw [nameSpace_inert hn]
  simp

theorem paramScanAux_zero (run l : List Char) : paramScanAux 0 run l = [] := by
  unfold paramScanAux
  rfl

theorem paramScanAux_nil (fuel : Nat) (run : List Char) :
    paramScanAux fuel run [] = [] := by
  cases fuel with
  | zero => exact paramScanAux_zero run []
  | succ f =>
    unfold paramScanAux
    rfl

theorem paramScanAux_cons (fuel : Nat) (run : List Char) (c : Char)
    (rest : List Char) :
    paramScanAux (fuel + 1) run (c :: rest)
      = if isWordChar c then paramScanAux fuel (c :: run) rest
        else if c = ':' ∧ run ≠ [] then
          match tryParamTail rest with
          | some (ty, nm, consumed) =>
            (run.reverse, ty, nm) :: paramScanAux fuel [] (rest.drop consumed)
          | none => paramScanAux fuel [] rest
        else paramScanAux fuel [] rest := by
  conv_lhs => unfold paramScanAux

theorem paramScanAux_fuel {f1 : Nat} :
    ∀ {f2 : Nat} {run l : List Char}, l.length < f1 → l.length < f2 →
      paramScanAux f1 run l = paramScanAux f2 run l := by
  induction f1 with
  | zero =>
    intro f2 run l h1 _
    omega
  | succ f ih =>
    intro f2 run l h1 h2
    cases l with
    | nil => rw [paramScanAux_nil, paramScanAux_nil]
    | cons c rest =>
      cases f2 with
      | zero => omega
      | succ f2 =>
        rw [paramScanAux_cons, paramScanAux_cons]
        have hrest1 : rest.length < f := by
          simp only [List.length_cons] at h1
          omega
        have hrest2 : rest.length < f2 := by
          simp only [List.length_cons] at h2
          omega
        by_cases hw : isWordChar c = true
        · rw [if_pos hw, if_pos hw]
          exact ih hrest1 hrest2
        · rw [if_neg hw, if_neg hw]
          by_cases hcr : c = ':' ∧ run ≠ []
          · rw [if_pos hcr, if_pos hcr]
            cases htt : tryParamTail rest with
            | none =>
              simp only [htt]
              exact ih hrest1 hrest2
            | some v =>
              obtain ⟨ty, nm, consumed⟩ := v
              have hd1 : (rest.drop consumed).length < f := by
                simp only [List.length_drop]
                omega
              have hd2 : (rest.drop consumed).length < f2 := by
                simp only [List.length_drop]
                omega
              simp only [htt]
              rw [ih hd1 hd2]
          · rw [if_neg hcr, if_neg hcr]
            exact ih hrest1 hrest2

theorem paramScanAux_words {w : List Char}
    (hw : ∀ c ∈ w, isWordChar c = true) :
    ∀ {fuel : Nat} {run rest : List Char}, (w ++ rest).length < fuel →
      paramScanAux fuel run (w ++ rest)
        = paramScanAux (rest.length + 1) (w.reverse ++ run) rest := by
  induction w with
  | nil =>
    intro fuel run rest h
    simp only [List.nil_append] at h ⊢
    exact paramScanAux_fuel h (by omega)
  | cons c w2 ih =>
    intro fuel run rest h
    cases fuel with
    | zero => simp at h
    | succ f =>
      rw [List.cons_append, paramScanAux_cons,
        if_pos (hw c (List.mem_cons_self c w2))]
      have hlen : (w2 ++ rest).length < f := by
        simp only [List.cons_append, List.length_cons] at h
        omega
      rw [ih (fun x hx => hw x (List.mem_cons_of_mem c hx)) hlen]
      congr 1
      simp

theorem paramScanAux_all_word {w : List Char}
    (hw : ∀ c ∈ w, isWordChar c = true) :
    ∀ (fuel : Nat) (run : List Char), paramScanAux fuel run w = [] := by
  induction w with
  | nil => intro fuel run; exact paramScanAux_nil fuel run
  | cons c w2 ih =>
    intro fuel run
    cases fuel with
    | zero => exact paramScanAux_zero _ _
    | succ f =>
      rw [paramScanAux_cons, if_pos (hw c (List.mem_cons_self c w2))]
      exact ih (fun x hx => hw x (List.mem_cons_of_mem c hx)) f _

theorem paramScanAux_inert {xs : List Char} (hnc : ∀ c ∈ xs, c ≠ ':')
    (hlast : ∀ c, xs.getLast? = some c → isWordChar c = false)
    (hne : xs ≠ []) :
    ∀ {fuel : Nat} {run rest : List Char}, (xs ++ rest).length < fuel →
      paramScanAux fuel run (xs ++ rest)
        = paramScanAux (rest.length + 1) [] rest := by
  induction xs with
  | nil => exact absurd rfl hne
  | cons c xs2 ih =>
    intro fuel run rest h
    cases fuel with
    | zero => simp at h
    | succ f =>
      have hlen : (xs2 ++ rest).length < f := by
        simp only [List.cons_append, List.length_cons] at h
        omega
      rw [List.cons_append, paramScanAux_cons]
      by_cases hw : isWordChar c = true
      · have hxs2 : xs2 ≠ [] := by
          intro he
          subst he
          have := hlast c (by rfl)
          rw [hw] at this
          exact Bool.true_eq_false.mp this
        rw [if_pos hw]
        apply ih (fun x hx => hnc x (List.mem_cons_of_mem c hx)) ?_ hxs2 hlen
        intro d hd
        apply hlast
        rcases xs2 with _ | ⟨e, xs3⟩
        · exact absurd rfl hxs2
        · rw [List.getLast?_cons_cons]
          exact hd
      · have hcne : c ≠ ':' := hnc c (List.mem_cons_self c xs2)
        rw [if_neg hw, if_neg (fun hx => hcne hx.1)]
        rcases xs2 with _ | ⟨d, xs3⟩
        · simp only [List.nil_append]
          simp only [List.nil_append, List.length_nil] at hlen
          exact paramScanAux_fuel hlen (by omega)
        · apply ih (fun x hx => hnc x (List.mem_cons_of_mem c hx)) ?_ (by simp) hlen
          intro e he
          apply hlast
          rw [List.getLast?_cons_cons]
          exact he

theorem tryParamTail_seg (ty n : String) (rest2 : List Char)
    (hty : typeStr ty) (hn : wordStr n)
    (hr2 : ∀ c, rest2.head? = some c → isWordChar c = false) :
    tryParamTail ('(' :: (ty.data ++ (')' :: (n.data ++ rest2))))
      = some (ty.data, n.data, ty.data.length + n.data.length + 2) := by
  obtain ⟨htyne, htyc⟩ := hty
  obtain ⟨hnne, hnc⟩ := hn
  have hs1 : spaceRun ('(' :: (ty.data ++ (')' :: (n.data ++ rest2)))) = 0 := by
    unfold spaceRun
    rw [takeWhile_nil_of_head (p := isSpaceChar) (c := '(')
      (ty.data ++ (')' :: (n.data ++ rest2))) (by decide)]
    rfl
  have hty' : (ty.data ++ (')' :: (n.data ++ rest2))).takeWhile
      (fun c => c ≠ ')') = ty.data := by
    rw [takeWhile_append_all (')' :: (n.data ++ rest2))
      (fun c hc => decide_eq_true (retchar_ne (htyc c hc)).2.1)]
    rw [takeWhile_nil_of_head (p := fun c => c ≠ ')') (c := ')')
      (n.data ++ rest2) (by decide)]
    exact List.append_nil _
  have hdrop : (ty.data ++ (')' :: (n.data ++ rest2))).drop (ty.data.length + 1)
      = n.data ++ rest2 := by
    rw [List.append_cons]
    exact List.drop_left' (by simp)
  have hs2 : spaceRun (n.data ++ rest2) = 0 := by
    rcases hd : n.data with _ | ⟨c, nd⟩
    · exact absurd hd hnne
    · rw [List.cons_append]
      unfold spaceRun
      rw [takeWhile_nil_of_head (p := isSpaceChar) (nd ++ rest2)
        (not_space_of_word (hnc c (hd ▸ List.mem_cons_self c nd)))]
      rfl
  have hnm : (n.data ++ rest2).takeWhile isWordChar = n.data := by
    rw [takeWhile_append_all rest2 hnc]
    rcases rest2 with _ | ⟨c, r⟩
    · simp
    · rw [takeWhile_nil_of_head (p := isWordChar) r (hr2 c rfl),
        List.append_nil]
  have hg1 : ¬(ty.data.length = 0
      ∨ ¬ ty.data.length < (ty.data ++ (')' :: (n.data ++ rest2))).length) := by
    push_neg
    constructor
    · intro h0
      exact htyne (List.length_eq_zero.mp h0)
    · simp only [List.length_append, List.length_cons]
      omega
  simp only [tryParamTail, hs1, List.drop_zero, hty', hdrop, hs2, hnm]
  rw [if_neg hg1, if_neg hnne]
  have harith : 0 + 1 + ty.data.length + 1 + 0 + n.data.length
      = ty.data.length + n.data.length + 2 := by omega
  rw [harith]

theorem paramScanAux_seg_cons (t : String × String × String) (hwf : segWF t)
    (rest2 : List Char)
    (hr2 : ∀ c, rest2.head? = some c → isWordChar c = false) :
    ∀ {fuel : Nat}, (renderSeg t ++ rest2).length < fuel →
      paramScanAux fuel [] (renderSeg t ++ rest2)
        = (t.1.data, t.2.1.data, t.2.2.data)
            :: paramScanAux (rest2.length + 1) [] rest2 := by
  obtain ⟨l, ty, n⟩ := t
  obtain ⟨hwl, hwty, hwn⟩ := hwf
  have hl : wordStr l := hwl
  have hty : typeStr ty := hwty
  have hn : wordStr n := hwn
  intro fuel hfuel
  have hshape : renderSeg (l, ty, n) ++ rest2
      = l.data ++ (':' :: ('(' :: (ty.data ++ (')' :: (n.data ++ rest2))))) := by
    simp [renderSeg, List.append_assoc]
  rw [hshape]
  rw [paramScanAux_words hl.2 (by rw [← hshape]; exact hfuel)]
  rw [paramScanAux_cons]
  rw [if_neg (by decide : ¬ isWordChar ':' = true)]
  rw [if_pos ⟨rfl, by simp [hl.1]⟩]
  simp only [tryParamTail_seg ty n rest2 hty hn hr2]
  have hdropT : ('(' :: (ty.data ++ (')' :: (n.data ++ rest2)))).drop
      (ty.data.length + n.data.length + 2) = rest2 := by
    rw [show '(' :: (ty.data ++ (')' :: (n.data ++ rest2)))
        = ((('(' :: ty.data) ++ [')']) ++ n.data) ++ rest2 by
      simp [List.append_assoc]]
    refine List.drop_left' ?_
    simp only [List.length_append, List.length_cons, List.length_nil]
    omega
  rw [hdropT]
  have hlen2 : rest2.length <
      (':' :: ('(' :: (ty.data ++ (')' :: (n.data ++ rest2))))).length := by
    simp only [List.length_cons, List.length_append]
    omega
  rw [paramScanAux_fuel hlen2 (Nat.lt_succ_self _)]
  simp

theorem paramScanAux_renderSegs (params : List (String × String × String))
    (h : ∀ t ∈ params, segWF t) :
    ∀ {fuel : Nat}, (renderSegs params).length < fuel →
      paramScanAux fuel [] (renderSegs params)
        = params.map (fun t => (t.1.data, t.2.1.data, t.2.2.data)) := by
  induction params with
  | nil =>
    intro fuel _
    exact paramScanAux_nil fuel []
  | cons t ts ih =>
    intro fuel hfuel
    cases ts with
    | nil =>
      have hshape : renderSegs [t] = renderSeg t ++ [] := by
        simp [renderSegs]
      rw [hshape] at hfuel ⊢
      rw [paramScanAux_seg_cons t (h t (List.mem_cons_self t [])) []
        (fun c hc => by simp at hc) hfuel]
      rw [paramScanAux_nil]
      rfl
    | cons u ts2 =>
      have hshape : renderSegs (t :: u :: ts2)
          = renderSeg t ++ (' ' :: renderSegs (u :: ts2)) := by
        rfl
      rw [hshape] at hfuel ⊢
      rw [paramScanAux_seg_cons t (h t (List.mem_cons_self t (u :: ts2)))
        (' ' :: renderSegs (u :: ts2))
        (fun c hc => by simp at hc; rw [← hc]; decide) hfuel]
      rw [paramScanAux_cons]
      rw [if_neg (by decide : ¬ isWordChar ' ' = true)]
      rw [if_neg (by simp : ¬(' ' = ':' ∧ ([] : List Char) ≠ []))]
      have hbound : (renderSegs (u :: ts2)).length
          < (' ' :: renderSegs (u :: ts2)).length := by
        simp
      rw [paramScanAux_fuel hbound (Nat.lt_succ_self _)]
      rw [ih (fun x hx => h x (List.mem_cons_of_mem t hx)) (Nat.lt_succ_self _)]
      rfl

theorem labelScanAux_renderSegs (params : List (String × String × String))
    (h : ∀ t ∈ params, segWF t) (hne : params ≠ []) :
    labelScanAux [] (renderSegs params)
      = params.map (fun t => t.1.data ++ [':']) := by
  induction params with
  | nil => exact absurd rfl hne
  | cons t ts ih =>
    rcases ts with _ | ⟨t2, ts2⟩
    · rcases t with ⟨l, ty, n⟩
      obtain ⟨hl, hty, hn⟩ := h (l, ty, n) (List.mem_cons_self _ _)
      unfold renderSegs
      rw [labelScanAux_renderSeg_last l ty n hl hty hn]
      rfl
    · rcases t with ⟨l, ty, n⟩
      obtain ⟨hl, hty, hn⟩ := h (l, ty, n) (List.mem_cons_self _ _)
      unfold renderSegs
      rw [labelScanAux_renderSeg_cons l ty n _ hl hty hn]
      rw [ih (fun x hx => h x (List.mem_cons_of_mem _ hx)) (by simp)]
      rfl

theorem data_mk (l : List Char) : (String.mk l).data = l := rfl

theorem spaceRun_space_paren (X : List Char) :
    spaceRun (' ' :: ('(' :: X)) = 1 := by
  unfold spaceRun
  rw [List.takeWhile_cons]
  rw [(by decide : isSpaceChar ' ' = true)]
  rw [if_pos rfl]
  rw [takeWhile_nil_of_head (p := isSpaceChar) X (by decide)]
  rfl

theorem getLast_cons_of_ne_nil {c : Char} {l : List Char} (h : l ≠ []) :
    (c :: l).getLast? = l.getLast? := by
  rcases l with _ | ⟨d, l2⟩
  · exact absurd rfl h
  · exact List.getLast?_cons_cons

theorem renderSeg_ne_nil (t : String × String × String) : renderSeg t ≠ [] := by
  obtain ⟨l, ty, n⟩ := t
  simp [renderSeg]

theorem renderSegs_ne_nil (t : String × String × String)
    (ts : List (String × String × String)) : renderSegs (t :: ts) ≠ [] := by
  rcases ts with _ | ⟨u, ts2⟩
  · exact renderSeg_ne_nil t
  · show renderSeg t ++ (' ' :: renderSegs (u :: ts2)) ≠ []
    simp

theorem renderSeg_getLast_word (l ty n : String) (hn : wordStr n) :
    ∀ c, (renderSeg (l, ty, n)).getLast? = some c → isWordChar c = true := by
  intro c hc
  rw [show renderSeg (l, ty, n)
        = (l.data ++ (':' :: '(' :: ty.data)) ++ (')' :: n.data) by
      simp [renderSeg],
    List.getLast?_append_cons, getLast_cons_of_ne_nil hn.1] at hc
  exact hn.2 c (List.mem_of_mem_getLast? hc)

theorem renderSegs_getLast_word (params : List (String × String × String))
    (h : ∀ t ∈ params, segWF t) :
    ∀ c, (renderSegs params).getLast? = some c → isWordChar c = true := by
  induction params with
  | nil =>
    intro c hc
    simp [renderSegs] at hc
  | cons t ts ih =>
    rcases ts with _ | ⟨u, ts2⟩
    · obtain ⟨l, ty, n⟩ := t
      exact renderSeg_getLast_word l ty n
        (h (l, ty, n) (List.mem_cons_self _ _)).2.2
    · intro c hc
      rw [show renderSegs (t :: u :: ts2)
            = renderSeg t ++ (' ' :: renderSegs (u :: ts2)) from rfl,
        List.getLast?_append_cons,
        getLast_cons_of_ne_nil (renderSegs_ne_nil u ts2)] at hc
      exact ih (fun x hx => h x (List.mem_cons_of_mem t hx)) c hc

theorem count_colon_zero {w : List Char} (h : ∀ c ∈ w, isWordChar c = true) :
    w.count ':' = 0 := by
  rw [List.count_eq_zero]
  intro hm
  exact (word_char_ne (h ':' hm)).1 rfl

theorem count_colon_joinSep (comps : List (List Char))
    (h : ∀ w ∈ comps, w.count ':' = 1) :
    (joinSep "" (comps.map String.mk)).data.count ':' = comps.length := by
  induction comps with
  | nil => rfl
  | cons w ws ih =>
    rcases ws with _ | ⟨w2, ws2⟩
    · show w.count ':' = 1
      exact h w (List.mem_cons_self w [])
    · show ((String.mk w ++ "" ++ joinSep ""
          (String.mk w2 :: List.map String.mk ws2)).data).count ':'
        = (w :: w2 :: ws2).length
      rw [String.data_append, String.data_append, data_mk]
      rw [List.count_append, List.count_append]
      rw [h w (List.mem_cons_self w (w2 :: ws2))]
      have hjoin := ih (fun x hx => h x (List.mem_cons_of_mem w hx))
      rw [show List.map String.mk (w2 :: ws2)
          = String.mk w2 :: List.map String.mk ws2 from rfl] at hjoin
      rw [hjoin]
      have h0 : (("" : String).data).count ':' = 0 := rfl
      rw [h0]
      simp only [List.length_cons]
      omega

theorem returnTypeScan_cons (c : Char) (rest : List Char) :
    returnTypeScan (c :: rest)
      = if c = '+' ∨ c = '-' then
          match sigilRetTry rest with
          | some t => some t
          | none => returnTypeScan rest
        else returnTypeScan rest := by
  conv_lhs => unfold returnTypeScan

theorem sigilRetTry_decl (ret : String) (body : List Char) (hret : typeStr ret) :
    sigilRetTry (' ' :: ('(' :: (ret.data ++ (')' :: body)))) = some ret.data := by
  have hs : spaceRun (' ' :: ('(' :: (ret.data ++ (')' :: body)))) = 1 :=
    spaceRun_space_paren _
  have htw : (ret.data ++ (')' :: body)).takeWhile isRetTypeChar = ret.data := by
    rw [takeWhile_append_all (')' :: body) hret.2]
    rw [takeWhile_nil_of_head (p := isRetTypeChar) body (by decide),
      List.append_nil]
  have hdrop : (ret.data ++ (')' :: body)).drop ret.data.length = ')' :: body :=
    List.drop_left ret.data (')' :: body)
  simp only [sigilRetTry, hs, List.drop_one, List.tail_cons, htw, hdrop]
  rw [if_neg hret.1]

theorem returnTypeScan_decl (sigil : Char) (ret : String) (body : List Char)
    (hsig : sigil = '+' ∨ sigil = '-') (hret : typeStr ret) :
    returnTypeScan (sigil :: (' ' :: ('(' :: (ret.data ++ (')' :: body)))))
      = some ret.data := by
  rw [returnTypeScan_cons, if_pos hsig]
  simp only [sigilRetTry_decl ret body hret]

theorem methodNameScan_cons (c : Char) (rest : List Char) :
    methodNameScan (c :: rest)
      = if c = '+' ∨ c = '-' then
          match sigilNameTry rest with
          | some nm => some nm
          | none => methodNameScan rest
        else methodNameScan rest := by
  conv_lhs => unfold methodNameScan

theorem sigilNameTry_decl (ret fw : String) (tail2 : List Char)
    (hret : typeStr ret) (hfw : wordStr fw)
    (ht2 : ∀ c, tail2.head? = some c → isWordChar c = false) :
    sigilNameTry (' ' :: ('(' :: (ret.data ++ (')' :: (fw.data ++ tail2)))))
      = some fw.data := by
  have hs : spaceRun (' ' :: ('(' :: (ret.data ++ (')' :: (fw.data ++ tail2)))))
      = 1 := spaceRun_space_paren _
  have hinner : (ret.data ++ (')' :: (fw.data ++ tail2))).takeWhile
      (fun c => c ≠ ')') = ret.data := by
    rw [takeWhile_append_all (')' :: (fw.data ++ tail2))
      (fun c hc => decide_eq_true (retchar_ne (hret.2 c hc)).2.1)]
    rw [takeWhile_nil_of_head (p := fun c => c ≠ ')') (c := ')')
      (fw.data ++ tail2) (by decide)]
    exact List.append_nil _
  have hg : ¬(ret.data.length = 0
      ∨ ¬ ret.data.length < (ret.data ++ (')' :: (fw.data ++ tail2))).length) := by
    push_neg
    constructor
    · intro h0
      exact hret.1 (List.length_eq_zero.mp h0)
    · simp only [List.length_append, List.length_cons]
      omega
  have hdrop : (ret.data ++ (')' :: (fw.data ++ tail2))).drop
      (ret.data.length + 1) = fw.data ++ tail2 := by
    rw [List.append_cons]
    exact List.drop_left' (by simp)
  have hs2 : spaceRun (fw.data ++ tail2) = 0 := by
    rcases hd : fw.data with _ | ⟨c, nd⟩
    · exact absurd hd hfw.1
    · rw [List.cons_append]
      unfold spaceRun
      rw [takeWhile_nil_of_head (p := isSpaceChar) (nd ++ tail2)
        (not_space_of_word (hfw.2 c (hd ▸ List.mem_cons_self c nd)))]
      rfl
  have hnm : (fw.data ++ tail2).takeWhile isWordChar = fw.data := by
    rw [takeWhile_append_all tail2 hfw.2]
    rcases tail2 with _ | ⟨c, r⟩
    · simp
    · rw [takeWhile_nil_of_head (p := isWordChar) r (ht2 c rfl),
        List.append_nil]
  simp only [sigilNameTry, hs, List.drop_one, List.tail_cons, hinner, hdrop,
    hs2, List.drop_zero, hnm]
  rw [if_neg hg, if_neg hfw.1]

theorem methodNameScan_decl (sigil : Char) (ret fw : String) (tail2 : List Char)
    (hsig : sigil = '+' ∨ sigil = '-') (hret : typeStr ret) (hfw : wordStr fw)
    (ht2 : ∀ c, tail2.head? = some c → isWordChar c = false) :
    methodNameScan
        (sigil :: (' ' :: ('(' :: (ret.data ++ (')' :: (fw.data ++ tail2))))))
      = some fw.data := by
  rw [methodNameScan_cons, if_pos hsig]
  simp only [sigilNameTry_decl ret fw tail2 hret hfw ht2]

theorem renderDecl_shape (sigil : Char) (ret base : String)
    (params : List (String × String × String)) :
    renderDecl sigil ret base params
      = sigil :: (' ' :: ('(' :: (ret.data ++ (')' ::
          (if params.isEmpty then base.data else renderSegs params))))) := by
  simp [renderDecl]

theorem renderDecl_split (sigil : Char) (ret base : String)
    (params : List (String × String × String)) :
    renderDecl sigil ret base params
      = (sigil :: ' ' :: '(' :: ret.data ++ [')'])
          ++ (if params.isEmpty then base.data else renderSegs params) := by
  simp [renderDecl]

theorem renderSegs_cons_shape (t : String × String × String)
    (ts : List (String × String × String)) :
    ∃ R, renderSegs (t :: ts) = t.1.data ++ (':' :: R) := by
  obtain ⟨l, ty, n⟩ := t
  rcases ts with _ | ⟨u, ts2⟩
  · exact ⟨'(' :: (ty.data ++ (')' :: n.data)), by simp [renderSegs, renderSeg]⟩
  · exact ⟨'(' :: (ty.data ++ (')' :: (n.data ++ (' ' :: renderSegs (u :: ts2))))),
      by simp [renderSegs, renderSeg]⟩

theorem declPrefix_no_colon (sigil : Char) (ret : String)
    (hsig : sigil = '+' ∨ sigil = '-') (hret : typeStr ret) :
    ∀ c ∈ (sigil :: ' ' :: '(' :: ret.data ++ [')'] : List Char), c ≠ ':' := by
  intro c hc
  simp only [List.mem_append, List.mem_cons, List.mem_singleton,
    List.not_mem_nil, or_false] at hc
  rcases hc with (h | h | h | h) | h
  · subst h
    rcases hsig with rfl | rfl <;> decide
  · subst h; decide
  · subst h; decide
  · exact (retchar_ne (hret.2 c h)).1
  · subst h; decide

theorem declPrefix_last (sigil : Char) (ret : String) :
    ∀ c, (sigil :: ' ' :: '(' :: ret.data ++ [')'] : List Char).getLast?
        = some c → isWordChar c = false := by
  intro c hc
  rw [List.getLast?_concat] at hc
  obtain rfl := (Option.some.inj hc).symm
  decide

theorem labelScan_renderDecl (sigil : Char) (ret base : String)
    (params : List (String × String × String))
    (hsig : sigil = '+' ∨ sigil = '-') (hret : typeStr ret)
    (hbase : wordStr base) (hp : ∀ t ∈ params, segWF t) :
    labelScan (renderDecl sigil ret base params)
      = params.map (fun t => t.1.data ++ [':']) := by
  unfold labelScan
  rw [renderDecl_split]
  rw [labelScanAux_inert (declPrefix_no_colon sigil ret hsig hret)
    (declPrefix_last sigil ret) (by simp)]
  rcases params with _ | ⟨t, ts⟩
  · rw [if_pos (show ([] : List (String × String × String)).isEmpty = true
      from rfl)]
    rw [labelScanAux_all_word hbase.2]
    rfl
  · rw [if_neg (by simp)]
    rw [labelScanAux_renderSegs (t :: ts) hp (by simp)]

theorem paramScan_renderDecl (sigil : Char) (ret base : String)
    (params : List (String × String × String))
    (hsig : sigil = '+' ∨ sigil = '-') (hret : typeStr ret)
    (hbase : wordStr base) (hp : ∀ t ∈ params, segWF t) :
    paramScan (renderDecl sigil ret base params)
      = params.map (fun t => (t.1.data, t.2.1.data, t.2.2.data)) := by
  unfold paramScan
  rw [renderDecl_split]
  rw [paramScanAux_inert (declPrefix_no_colon sigil ret hsig hret)
    (declPrefix_last sigil ret) (by simp) (Nat.lt_succ_self _)]
  rcases params with _ | ⟨t, ts⟩
  · rw [if_pos (show ([] : List (String × String × String)).isEmpty = true
      from rfl)]
    rw [paramScanAux_all_word hbase.2]
    rfl
  · rw [if_neg (by simp)]
    rw [paramScanAux_renderSegs (t :: ts) hp (Nat.lt_succ_self _)]

theorem returnTypeScan_renderDecl (sigil : Char) (ret base : String)
    (params : List (String × String × String))
    (hsig : sigil = '+' ∨ sigil = '-') (hret : typeStr ret) :
    returnTypeScan (renderDecl sigil ret base params) = some ret.data := by
  rw [renderDecl_shape]
  exact returnTypeScan_decl sigil ret _ hsig hret

theorem methodNameScan_renderDecl_nil (sigil : Char) (ret base : String)
    (hsig : sigil = '+' ∨ sigil = '-') (hret : typeStr ret)
    (hbase : wordStr base) :
    methodNameScan (renderDecl sigil ret base []) = some base.data := by
  rw [renderDecl_shape]
  rw [if_pos (show ([] : List (String × String × String)).isEmpty = true
    from rfl)]
  conv_lhs => rw [show (base.data : List Char) = base.data ++ [] by simp]
  exact methodNameScan_decl sigil ret base [] hsig hret hbase
    (fun c hc => by simp at hc)

theorem methodNameScan_renderDecl_cons (sigil : Char) (ret base : String)
    (t : String × String × String) (ts : List (String × String × String))
    (hsig : sigil = '+' ∨ sigil = '-') (hret : typeStr ret)
    (hw1 : wordStr t.1) :
    methodNameScan (renderDecl sigil ret base (t :: ts)) = some t.1.data := by
  obtain ⟨R, hR⟩ := renderSegs_cons_shape t ts
  rw [renderDecl_shape, if_neg (by simp), hR]
  exact methodNameScan_decl sigil ret t.1 (':' :: R) hsig hret hw1
    (fun c hc => by
      simp at hc
      subst hc
      decide)

theorem sigPrep_renderDecl (sigil : Char) (ret base : String)
    (params : List (String × String × String))
    (hsig : sigil = '+' ∨ sigil = '-') (hbase : wordStr base)
    (hp : ∀ t ∈ params, segWF t) :
    stripTrailingSemi (jsTrim (String.mk (renderDecl sigil ret base params)))
      = String.mk (renderDecl sigil ret base params) := by
  have hhead : ∀ c, (renderDecl sigil ret base params).head? = some c →
      isSpaceChar c = false := by
    intro c hc
    rw [renderDecl_shape, List.head?_cons] at hc
    obtain rfl := (Option.some.inj hc).symm
    rcases hsig with rfl | rfl <;> decide
  have hlast : ∀ c, (renderDecl sigil ret base params).getLast? = some c →
      isWordChar c = true := by
    intro c hc
    rw [renderDecl_split] at hc
    rcases params with _ | ⟨t, ts⟩
    · rw [if_pos (show ([] : List (String × String × String)).isEmpty = true
        from rfl)] at hc
      rcases hd : base.data with _ | ⟨b, bs⟩
      · exact absurd hd hbase.1
      · rw [hd, List.getLast?_append_cons] at hc
        have hm : c ∈ b :: bs := List.mem_of_mem_getLast? hc
        apply hbase.2 c
        rw [hd]
        exact hm
    · rw [if_neg (by simp)] at hc
      have hne := renderSegs_ne_nil t ts
      rcases hrs : renderSegs (t :: ts) with _ | ⟨d, ds⟩
      · exact absurd hrs hne
      · rw [hrs, List.getLast?_append_cons] at hc
        apply renderSegs_getLast_word (t :: ts) hp c
        rw [hrs]
        exact hc
  have hjt : jsTrim (String.mk (renderDecl sigil ret base params))
      = String.mk (renderDecl sigil ret base params) := by
    unfold jsTrim
    rw [data_mk]
    rw [jsTrimL_eq_self_of_ends hhead
      (fun c hc => not_space_of_word (hlast c hc))]
  rw [hjt]
  unfold stripTrailingSemi
  rw [data_mk]
  rw [if_neg ?_]
  intro habs
  unfold endsWithChar at habs
  rcases hgl : (renderDecl sigil ret base params).getLast? with _ | c
  · rw [hgl] at habs
    simp at habs
  · rw [hgl] at habs
    have hcw := hlast c hgl
    simp at habs
    subst habs
    exact absurd hcw (by decide)

theorem processGroup_eq_self_of_inactive {k : Bool × String}
    {l : List TsMethodNode}
    (h : (msOf k l).length ≤ 1 ∨ (implsOf k l).length ≠ 1 ∨ (sigsOf k l).length = 0) :
    processGroup k l = l := by
  unfold processGroup
  rcases h with h | h
  · rw [if_pos h]
  · by_cases h1 : (msOf k l).length ≤ 1
    · rw [if_pos h1]
    · rw [if_neg h1, if_pos h]

theorem processGroup_eq_gather_of_active {k : Bool × String}
    {l : List TsMethodNode}
    (h1 : ¬ (msOf k l).length ≤ 1)
    (h2 : ¬ ((implsOf k l).length ≠ 1 ∨ (sigsOf k l).length = 0)) :
    processGroup k l = gatherAt (inGroup k) (sigsOf k l ++ implsOf k l) l := by
  unfold processGroup
  rw [if_neg h1, if_neg h2]

theorem msOf_ne_nil_of_active {k : Bool × String} {l : List TsMethodNode}
    (h1 : ¬ (msOf k l).length ≤ 1) : msOf k l ≠ [] := by
  intro h
  rw [h] at h1
  simp at h1

theorem block_ne_nil_of_active {k : Bool × String} {l : List TsMethodNode}
    (h2 : ¬ ((implsOf k l).length ≠ 1 ∨ (sigsOf k l).length = 0)) :
    sigsOf k l ++ implsOf k l ≠ [] := by
  push_neg at h2
  intro h
  rcases List.append_eq_nil.mp h with ⟨hs, _⟩
  rw [hs] at h2
  simp at h2

/-- The reflowed block decomposes a gather result into the canonical
`prefix ++ block ++ suffix` shape with group-free sides. -/
theorem gather_result_shape {k : Bool × String} {l : List TsMethodNode}
    (hne : msOf k l ≠ []) (block : List TsMethodNode) :
    ∃ A B, gatherAt (inGroup k) block l = A ++ block ++ B
      ∧ (∀ m ∈ A, inGroup k m = false) ∧ (∀ m ∈ B, inGroup k m = false) := by
  obtain ⟨A, m, r, heq, hA, hm⟩ := exists_first_split (inGroup k) hne
  refine ⟨A, r.filter (fun x => !(inGroup k) x), ?_, hA, ?_⟩
  · rw [heq, gatherAt_skip _ block _ hA, gatherAt_fire _ block _ hm,
      List.append_assoc]
  · intro x hx
    have := List.of_mem_filter hx
    simpa using this

/-- Recomputing the group data on a reflowed list gives back the same
signatures and implementation. -/
theorem group_data_of_gather {k : Bool × String} {l : List TsMethodNode}
    (hne : msOf k l ≠ []) :
    msOf k (gatherAt (inGroup k) (sigsOf k l ++ implsOf k l) l)
        = sigsOf k l ++ implsOf k l
      ∧ sigsOf k (gatherAt (inGroup k) (sigsOf k l ++ implsOf k l) l) = sigsOf k l
      ∧ implsOf k (gatherAt (inGroup k) (sigsOf k l ++ implsOf k l) l)
        = implsOf k l := by
  have hmsy : msOf k (gatherAt (inGroup k) (sigsOf k l ++ implsOf k l) l)
      = sigsOf k l ++ implsOf k l :=
    filter_gatherAt_self (inGroup k) hne (fun m hm => mem_block_inGroup hm)
  refine ⟨hmsy, ?_, ?_⟩
  · show (msOf k (gatherAt (inGroup k) (sigsOf k l ++ implsOf k l) l)).filter
        (fun m => !m.hasBody) = sigsOf k l
    rw [hmsy, List.filter_append]
    have hs : (sigsOf k l).filter (fun m => !m.hasBody) = sigsOf k l := by
      apply List.filter_eq_self.mpr
      intro a ha
      exact List.of_mem_filter (p := fun (m : TsMethodNode) => !m.hasBody)
        (show a ∈ (msOf k l).filter (fun m => !m.hasBody) from ha)
    have hi : (implsOf k l).filter (fun m => !m.hasBody) = [] := by
      apply List.filter_eq_nil_iff.mpr
      intro a ha
      have := List.of_mem_filter
        (show a ∈ (msOf k l).filter (fun m => m.hasBody) from ha)
      simp [this]
    rw [hs, hi, List.append_nil]
  · show (msOf k (gatherAt (inGroup k) (sigsOf k l ++ implsOf k l) l)).filter
        (fun m => m.hasBody) = implsOf k l
    rw [hmsy, List.filter_append]
    have hs : (sigsOf k l).filter (fun m => m.hasBody) = [] := by
      apply List.filter_eq_nil_iff.mpr
      intro a ha
      have := List.of_mem_filter
        (show a ∈ (msOf k l).filter (fun m => !m.hasBody) from ha)
      simp only [Bool.not_eq_true'] at this
      simp [this]
    have hi : (implsOf k l).filter (fun m => m.hasBody) = implsOf k l := by
      apply List.filter_eq_self.mpr
      intro a ha
      exact List.of_mem_filter (p := fun (m : TsMethodNode) => m.hasBody)
        (show a ∈ (msOf k l).filter (fun m => m.hasBody) from ha)
    rw [hs, hi, List.nil_append]

/-- Applying one reflow step twice is the same as applying it once. -/
theorem processGroup_idem (k : Bool × String) (l : List TsMethodNode) :
    processGroup k (processGroup k l) = processGroup k l := by
  by_cases h1 : (msOf k l).length ≤ 1
  · have hl : processGroup k l = l := processGroup_eq_self_of_inactive (Or.inl h1)
    rw [hl]
    exact hl
  by_cases h2 : (implsOf k l).length ≠ 1 ∨ (sigsOf k l).length = 0
  · have hl : processGroup k l = l := processGroup_eq_self_of_inactive (Or.inr h2)
    rw [hl]
    exact hl
  have hl : processGroup k l = gatherAt (inGroup k) (sigsOf k l ++ implsOf k l) l :=
    processGroup_eq_gather_of_active h1 h2
  have hne : msOf k l ≠ [] := msOf_ne_nil_of_active h1
  obtain ⟨hmsy, hsigy, himpy⟩ := group_data_of_gather (l := l) (k := k) hne
  have hlen : (sigsOf k l ++ implsOf k l).length = (msOf k l).length := by
    have := length_filter_partition (fun m => m.hasBody) (msOf k l)
    simp only [List.length_append]
    unfold sigsOf implsOf
    omega
  have hleny : ¬ (msOf k (processGroup k l)).length ≤ 1 := by
    rw [hl, hmsy, hlen]
    exact h1
  have hguardy : ¬ ((implsOf k (processGroup k l)).length ≠ 1
      ∨ (sigsOf k (processGroup k l)).length = 0) := by
    rw [hl, hsigy, himpy]
    exact h2
  rw [processGroup_eq_gather_of_active hleny hguardy]
  rw [hl, hsigy, himpy]
  obtain ⟨A, B, hy, hA, hB⟩ := gather_result_shape hne (sigsOf k l ++ implsOf k l)
  rw [hy]
  exact gatherAt_canonical _ hA hB (fun m hm => mem_block_inGroup hm)
    (block_ne_nil_of_active h2)

/-- Reflowing one group preserves the canonical placement another group
already has: the other group's contiguous block survives intact. -/
theorem gather_preserves_shape (p2 : TsMethodNode → Bool)
    (block2 : List TsMethodNode) (pk : TsMethodNode → Bool)
    (blockk A B : List TsMethodNode)
    (hdisj : ∀ m, pk m = true → p2 m = false)
    (hdisj2 : ∀ m ∈ block2, pk m = false)
    (hA : ∀ m ∈ A, pk m = false) (hB : ∀ m ∈ B, pk m = false)
    (hbk : ∀ m ∈ blockk, pk m = true) :
    ∃ A2 B2, gatherAt p2 block2 (A ++ blockk ++ B) = A2 ++ blockk ++ B2
      ∧ (∀ m ∈ A2, pk m = false) ∧ (∀ m ∈ B2, pk m = false) := by
  induction A with
  | nil =>
    have hbk2 : ∀ m ∈ blockk, p2 m = false := fun m hm => hdisj m (hbk m hm)
    refine ⟨[], gatherAt p2 block2 B, ?_, by simp, ?_⟩
    · simpa using gatherAt_skip p2 block2 B hbk2
    · intro m hm
      rcases mem_gatherAt p2 block2 hm with h | h
      · exact hB m h
      · exact hdisj2 m h
  | cons a A ih =>
    have hArest : ∀ m ∈ A, pk m = false :=
      fun m hm => hA m (List.mem_cons_of_mem a hm)
    by_cases ha2 : p2 a = true
    · rw [List.cons_append, List.cons_append, gatherAt_fire p2 block2 _ ha2]
      have hfil : (A ++ blockk ++ B).filter (fun x => !p2 x)
          = A.filter (fun x => !p2 x) ++ blockk ++ B.filter (fun x => !p2 x) := by
        rw [List.filter_append, List.filter_append]
        have : blockk.filter (fun x => !p2 x) = blockk :=
          List.filter_eq_self.mpr (fun m hm => by
            simp [hdisj m (hbk m hm)])
        rw [this]
      refine ⟨block2 ++ A.filter (fun x => !p2 x), B.filter (fun x => !p2 x),
        ?_, ?_, ?_⟩
      · rw [hfil]
        simp [List.append_assoc]
      · intro m hm
        rcases List.mem_append.mp hm with h | h
        · exact hdisj2 m h
        · exact hArest m (List.mem_of_mem_filter h)
      · intro m hm
        exact hB m (List.mem_of_mem_filter hm)
    · simp only [Bool.not_eq_true] at ha2
      obtain ⟨A2, B2, hy, hA2, hB2⟩ := ih hArest
      refine ⟨a :: A2, B2, ?_, ?_, hB2⟩
      · rw [List.cons_append, List.cons_append]
        simp only [gatherAt, ha2, Bool.false_eq_true, if_false]
        rw [hy]
        rfl
      · intro m hm
        rcases List.mem_cons.mp hm with h | h
        · exact h ▸ hA a (List.mem_cons_self a A)
        · exact hA2 m h

/-- A group the reflow pass already fixes stays fixed when another group is
reflowed. -/
theorem processGroup_preserved {k k2 : Bool × String}
    (l : List TsMethodNode) (h : processGroup k l = l) :
    processGroup k (processGroup k2 l) = processGroup k2 l := by
  by_cases hkk : k = k2
  · subst hkk
    rw [h]
    exact h
  by_cases h1 : (msOf k2 l).length ≤ 1
  · have h0 : processGroup k2 l = l := processGroup_eq_self_of_inactive (Or.inl h1)
    rw [h0]
    exact h
  by_cases h2 : (implsOf k2 l).length ≠ 1 ∨ (sigsOf k2 l).length = 0
  · have h0 : processGroup k2 l = l := processGroup_eq_self_of_inactive (Or.inr h2)
    rw [h0]
    exact h
  have hms : msOf k (processGroup k2 l) = msOf k l := msOf_processGroup_ne hkk l
  have hsig : sigsOf k (processGroup k2 l) = sigsOf k l := by
    unfold sigsOf
    rw [hms]
  have himp : implsOf k (processGroup k2 l) = implsOf k l := by
    unfold implsOf
    rw [hms]
  by_cases g1 : (msOf k l).length ≤ 1
  · exact processGroup_eq_self_of_inactive (Or.inl (by rw [hms]; exact g1))
  by_cases g2 : (implsOf k l).length ≠ 1 ∨ (sigsOf k l).length = 0
  · apply processGroup_eq_self_of_inactive
    right
    rw [hsig, himp]
    exact g2
  -- both groups active: derive the canonical shape of `l` for `k` from `h`
  have hlk : processGroup k l = gatherAt (inGroup k) (sigsOf k l ++ implsOf k l) l :=
    processGroup_eq_gather_of_active g1 g2
  have hgid : gatherAt (inGroup k) (sigsOf k l ++ implsOf k l) l = l := by
    rw [← hlk]
    exact h
  have hnek : msOf k l ≠ [] := msOf_ne_nil_of_active g1
  obtain ⟨A, B, hshape, hA, hB⟩ := gather_result_shape hnek (sigsOf k l ++ implsOf k l)
  rw [hgid] at hshape
  -- `l = A ++ blockk ++ B`; k2's gather keeps that block contiguous
  have hl2 : processGroup k2 l
      = gatherAt (inGroup k2) (sigsOf k2 l ++ implsOf k2 l) l :=
    processGroup_eq_gather_of_active h1 h2
  obtain ⟨A2, B2, hy, hA2, hB2⟩ :=
    gather_preserves_shape (inGroup k2) (sigsOf k2 l ++ implsOf k2 l)
      (inGroup k) (sigsOf k l ++ implsOf k l) A B
      (fun m hm => inGroup_disjoint hkk m hm)
      (fun m hm => inGroup_disjoint (Ne.symm hkk) m (mem_block_inGroup hm))
      hA hB (fun m hm => mem_block_inGroup hm)
  rw [processGroup_eq_gather_of_active
      (by rw [hms]; exact g1)
      (by rw [hsig, himp]; exact g2), hsig, himp]
  rw [← hshape] at hy
  rw [hl2, hy]
  exact gatherAt_canonical _ hA2 hB2 (fun m hm => mem_block_inGroup hm)
    (block_ne_nil_of_active g2)

theorem mem_dedupKeysAux_of {x : Bool × String} :
    ∀ {xs seen : List (Bool × String)}, x ∈ xs → x ∉ seen →
      x ∈ dedupKeysAux seen xs := by
  intro xs
  induction xs with
  | nil => intro seen h _; cases h
  | cons k rest ih =>
    intro seen hmem hnseen
    rcases List.mem_cons.mp hmem with h | h
    · subst h
      unfold dedupKeysAux
      rw [if_neg hnseen]
      exact List.mem_cons_self _ _
    · unfold dedupKeysAux
      by_cases hk : k ∈ seen
      · rw [if_pos hk]
        exact ih h hnseen
      · rw [if_neg hk]
        by_cases hx : x = k
        · subst hx
          exact List.mem_cons_self _ _
        · apply List.mem_cons_of_mem
          apply ih h
          intro hc
          rcases List.mem_cons.mp hc with hc | hc
          · exact hx hc
          · exact hnseen hc

theorem msOf_eq_nil_of_not_mem_keys {k : Bool × String}
    {l : List TsMethodNode} (h : k ∉ keyList l) : msOf k l = [] := by
  by_contra hne
  obtain ⟨m, hm⟩ := List.exists_mem_of_ne_nil _ hne
  have hmem : m ∈ l := List.mem_of_mem_filter hm
  have hg : inGroup k m = true := List.of_mem_filter hm
  unfold inGroup at hg
  simp only [Bool.and_eq_true, beq_iff_eq, Bool.not_eq_true'] at hg
  obtain ⟨⟨hexc, hstat⟩, hname⟩ := hg
  apply h
  unfold keyList
  apply mem_dedupKeysAux_of ?_ (by simp)
  apply List.mem_map.mpr
  refine ⟨m, List.mem_filter.mpr ⟨hmem, by simp [hexc]⟩, ?_⟩
  unfold nodeKey
  rcases k with ⟨ks, kn⟩
  simp only at hstat hname
  rw [hstat, hname]

theorem fold_fixed (ks : List (Bool × String)) (l : List TsMethodNode)
    (k : Bool × String) (h : processGroup k l = l ∨ k ∈ ks) :
    processGroup k (ks.foldl (fun acc kk => processGroup kk acc) l)
      = ks.foldl (fun acc kk => processGroup kk acc) l := by
  induction ks generalizing l with
  | nil =>
    rcases h with h | h
    · simpa using h
    · cases h
  | cons k1 ks ih =>
    simp only [List.foldl_cons]
    apply ih
    rcases h with h | hmem
    · exact Or.inl (processGroup_preserved l h)
    · rcases List.mem_cons.mp hmem with hk | hk
      · subst hk
        exact Or.inl (processGroup_idem k l)
      · exact Or.inr hk

theorem foldl_id_of_fixed (ks : List (Bool × String)) (y : List TsMethodNode)
    (h : ∀ k, processGroup k y = y) :
    ks.foldl (fun acc k => processGroup k acc) y = y := by
  induction ks with
  | nil => rfl
  | cons k ks ih =>
    simp only [List.foldl_cons, h k]
    exact ih

theorem processClassMethods_fixed (l : List TsMethodNode) (k : Bool × String) :
    processGroup k (processClassMethods l) = processClassMethods l := by
  by_cases hmem : k ∈ keyList l
  · exact fold_fixed _ _ _ (Or.inr hmem)
  · apply fold_fixed
    left
    apply processGroup_eq_self_of_inactive
    left
    rw [msOf_eq_nil_of_not_mem_keys hmem]
    simp

theorem processClassMethods_idem (l : List TsMethodNode) :
    processClassMethods (processClassMethods l) = processClassMethods l := by
  show (keyList (processClassMethods l)).foldl (fun acc k => processGroup k acc)
      (processClassMethods l) = processClassMethods l
  exact foldl_id_of_fixed _ _ (processClassMethods_fixed l)

theorem lastWordScan_ne_nil {l nm : List Char} (h : lastWordScan l = some nm) :
    nm ≠ [] := by
  unfold lastWordScan at h
  by_cases hr : (l.reverse.takeWhile isWordChar).reverse = []
  · simp [hr] at h
  · simp only [hr, if_false, if_neg hr, Option.some.injEq] at h
    exact h ▸ hr

theorem parseProperty_minimal_or_named (s : String) :
    parsePropertyDeclaration s = minimalProperty ∨
      (parsePropertyDeclaration s).pname ≠ "" := by
  rcases hb : basicPropertyScan (stripTrailingSemi (jsTrim s)).data with _ | g1
  · left
    simp [parsePropertyDeclaration, hb]
  · rcases hw : lastWordScan (jsTrimL (stripPropertyPrefixScan (jsTrimL g1)))
      with _ | nm
    · left
      simp [parsePropertyDeclaration, hb, hw]
    · right
      have hnm := lastWordScan_ne_nil hw
      simp only [parsePropertyDeclaration, hb, hw, ne_eq]
      intro hc
      exact hnm (congrArg String.data hc)

theorem mem_emitGroupMembers_of_mem (acc : List ClassMember)
    (kv : String × List ObjCMethodRec) (x : ClassMember) (hx : x ∈ acc) :
    x ∈ emitGroupMembers acc kv := by
  unfold emitGroupMembers
  rcases kv with ⟨key, ms⟩
  cases ms with
  | nil => simpa using hx
  | cons m rest =>
    dsimp only
    split
    · split
      · simpa using hx
      · exact List.mem_append_left _ hx
    · split
      · exact List.mem_append_left _ (List.mem_append_left _ hx)
      · exact List.mem_append_left _ hx

theorem mem_foldl_emitGroupMembers (groups : List (String × List ObjCMethodRec))
    (acc : List ClassMember) (x : ClassMember) (hx : x ∈ acc) :
    x ∈ groups.foldl emitGroupMembers acc := by
  induction groups generalizing acc with
  | nil => simpa using hx
  | cons g gs ih =>
    exact ih _ (mem_emitGroupMembers_of_mem acc g x hx)

/-! ## Claims -/

/-- C1: in an overload group of size two whose members take one and two
parameters, a call with two arguments does dispatch at the first matching
arity (the two-parameter member) and forwards its exact selector and an error
for no match names the base method — but the generated `unshift` loop prepends
the bound parameters in declaration order, so the arguments are forwarded in
*reverse* of the caller's order: the call `(1, 2)` is forwarded as `(2, 1)`. -/
theorem overloadDispatch_reverses_caller_order :
    dispatchOverload "foo"
        [ { isClassMethod := false, returnType := "void", mname := "foo:",
            parameters := [{ pname := "x", ptype := "NSString", isNullable := false,
                             documentation := "" }], availability := "" },
          { isClassMethod := false, returnType := "void", mname := "foo:bar:",
            parameters := [{ pname := "y", ptype := "NSString", isNullable := false,
                             documentation := "" },
                           { pname := "z", ptype := "NSInteger", isNullable := false,
                             documentation := "" }], availability := "" } ]
        [1, 2]
      = .ok ("foo:bar:", [2, 1]) ∧ ([2, 1] : List Nat) ≠ [1, 2] := by
  constructor
  · rfl
  · decide

/-- C2 counterexample: both members of the claimed `initWithFrame:` overload
pair begin with `init`, so the grouping loop skips them and produces *no*
overload group at all — no dispatch is generated for them. -/
theorem initializer_overloads_not_grouped :
    methodGroups [initFrameMethod, initFrameFlagsMethod] = [] := by
  rfl

/-- C2 amended: methods whose selector starts with `init` are excluded from
overload grouping (handled as construction); for two methods with the same
non-initializer base name and differing parameter counts
(`makeWithFrame:` / `makeWithFrame:andFlags:`), the generated dispatch called
with 1 argument invokes selector `makeWithFrame:`, with 2 arguments invokes
`makeWithFrame:andFlags:`, and with 3 arguments raises the unresolved-overload
error naming the base method. -/
theorem nonInitializer_overload_dispatch :
    methodGroups [makeFrameMethod, makeFrameFlagsMethod]
        = [("makeWithFrame", [makeFrameMethod, makeFrameFlagsMethod])]
      ∧ (dispatchOverload "makeWithFrame" [makeFrameMethod, makeFrameFlagsMethod]
          [10]).map Prod.fst = .ok "makeWithFrame:"
      ∧ (dispatchOverload "makeWithFrame" [makeFrameMethod, makeFrameFlagsMethod]
          [10, 20]).map Prod.fst = .ok "makeWithFrame:andFlags:"
      ∧ dispatchOverload (α := Nat) "makeWithFrame"
          [makeFrameMethod, makeFrameFlagsMethod] [10, 20, 30]
          = .error "Invalid number of arguments for method makeWithFrame" := by
  refine ⟨rfl, rfl, rfl, rfl⟩

/-- C3 counterexample: the interface-emission converter maps the unrecognized
name `NSColor` to the name itself, not to the opaque reference type (`any` is
its rendering of `id`, `id` is the class-emission converter's). -/
theorem interfaceConverter_fallback_not_opaque :
    convertTypeToTypeScript "NSColor" false = "NSColor"
      ∧ convertTypeToTypeScript "NSColor" false ≠ "any"
      ∧ convertTypeToTypeScript "NSColor" false ≠ "id" := by
  refine ⟨rfl, by decide, by decide⟩

/-- C3 amended: for a native type name with no table entry, the class-emission
converter falls back to the opaque reference type `id` (with the `| null`
suffix when a nullability token is present), while the interface-emission
converter returns the unrecognized name itself unchanged. -/
theorem typeMapper_fallbacks (t : String)
    (h1 : tableLookup interfaceTypeTable t = none)
    (h2 : t ≠ "")
    (h3 : tableLookup classTypeTable (classTypeKey t) = none) :
    convertTypeToTypeScript t false = t
      ∧ convertObjCTypeToTypeScriptString t =
          (if containsSub t "nullable" || containsSub t "_Nullable"
           then "id | null" else "id") := by
  constructor
  · unfold convertTypeToTypeScript
    rw [h1]
    rfl
  · unfold convertObjCTypeToTypeScriptString
    rw [if_neg h2]
    simp only [h3]
    split <;> rfl

/-- Witness for the amended C3 theorem at the unmapped name `NSColor`. -/
theorem typeMapper_fallbacks_witness :
    convertTypeToTypeScript "NSColor" false = "NSColor"
      ∧ convertObjCTypeToTypeScriptString "NSColor" =
          (if containsSub "NSColor" "nullable" || containsSub "NSColor" "_Nullable"
           then "id | null" else "id") :=
  typeMapper_fallbacks "NSColor" (by decide) (by decide) (by decide)

/-- C5: every extracted property whose parse set `isReadOnly` (i.e. whose
attribute list contained `readonly`) produces exactly a getter accessor and no
setter accessor in the property-emission pass. -/
theorem readonly_property_getter_only (s : String)
    (h : (parsePropertyDeclaration s).isReadOnly = true) :
    emitPropertyAccessors (parsePropertyDeclaration s) =
        [ .getAccessor (parsePropertyDeclaration s).pname
            (convertObjCTypeToTypeScriptString (parsePropertyDeclaration s).ptype)
            (.msgSend .self (parsePropertyDeclaration s).pname []) ]
      ∧ ∀ m ∈ emitPropertyAccessors (parsePropertyDeclaration s),
          m.isSetAccessor = false := by
  have hname : (parsePropertyDeclaration s).pname ≠ "" := by
    rcases parseProperty_minimal_or_named s with he | hn
    · rw [he] at h
      simp [minimalProperty] at h
    · exact hn
  have hacc : emitPropertyAccessors (parsePropertyDeclaration s) =
      [ .getAccessor (parsePropertyDeclaration s).pname
          (convertObjCTypeToTypeScriptString (parsePropertyDeclaration s).ptype)
          (.msgSend .self (parsePropertyDeclaration s).pname []) ] := by
    unfold emitPropertyAccessors
    rw [if_neg hname, h]
    simp
  refine ⟨hacc, ?_⟩
  intro m hm
  rw [hacc] at hm
  simp only [List.mem_singleton] at hm
  subst hm
  rfl

/-- Witness for C5 at `@property (nonatomic, readonly) NSInteger count;`. -/
theorem readonly_property_getter_only_witness :
    (parsePropertyDeclaration "@property (nonatomic, readonly) NSInteger count;").isReadOnly = true
      ∧ (emitPropertyAccessors (parsePropertyDeclaration
            "@property (nonatomic, readonly) NSInteger count;") =
          [ .getAccessor (parsePropertyDeclaration
                "@property (nonatomic, readonly) NSInteger count;").pname
              (convertObjCTypeToTypeScriptString (parsePropertyDeclaration
                "@property (nonatomic, readonly) NSInteger count;").ptype)
              (.msgSend .self (parsePropertyDeclaration
                "@property (nonatomic, readonly) NSInteger count;").pname []) ]
        ∧ ∀ m ∈ emitPropertyAccessors (parsePropertyDeclaration
              "@property (nonatomic, readonly) NSInteger count;"),
            m.isSetAccessor = false) :=
  ⟨by decide, readonly_property_getter_only _ (by decide)⟩

/-- C6: for every input string on which the property parse fails (either
`throw` site of the `try` body), `parsePropertyDeclaration` does not raise but
returns the minimal property: empty name, opaque type `id`, not readonly, not
nullable, empty attribute list. -/
theorem property_parse_failure_returns_minimal (s : String)
    (h : parsePropertyFails s = true) :
    parsePropertyDeclaration s =
      { pname := "", ptype := "id", isReadOnly := false, isNullable := false,
        attributes := [] } := by
  rcases hb : basicPropertyScan (stripTrailingSemi (jsTrim s)).data with _ | g1
  · simp [parsePropertyDeclaration, hb, minimalProperty]
  · rcases hw : lastWordScan (jsTrimL (stripPropertyPrefixScan (jsTrimL g1)))
      with _ | nm
    · simp [parsePropertyDeclaration, hb, hw, minimalProperty]
    · exfalso
      simp [parsePropertyFails, hb, hw] at h

/-- Witness for C6 at the unparseable input `"totally not a property"`. -/
theorem property_parse_failure_returns_minimal_witness :
    parsePropertyFails "totally not a property" = true
      ∧ parsePropertyDeclaration "totally not a property" =
          { pname := "", ptype := "id", isReadOnly := false, isNullable := false,
            attributes := [] } :=
  ⟨by decide, property_parse_failure_returns_minimal _ (by decide)⟩

/-- C7: a documentation block with `@param x the x value` followed by
`@return the sum` yields exactly the parameter map `x ↦ "the x value"` and
return description `"the sum"` — when the two tags share one physical line,
and in either multi-line layout (with or without leading ` * ` decorations). -/
theorem docComment_param_return_roundtrip :
    ((parseDocumentation "/*! @param x the x value @return the sum */").paramDocs
        = [("x", "the x value")]
      ∧ (parseDocumentation "/*! @param x the x value @return the sum */").returnDoc
        = "the sum")
    ∧ ((parseDocumentation "/*!\n@param x the x value\n@return the sum\n*/").paramDocs
        = [("x", "the x value")]
      ∧ (parseDocumentation "/*!\n@param x the x value\n@return the sum\n*/").returnDoc
        = "the sum")
    ∧ ((parseDocumentation "/*!\n * @param x the x value\n * @return the sum\n */").paramDocs
        = [("x", "the x value")]
      ∧ (parseDocumentation "/*!\n * @param x the x value\n * @return the sum\n */").returnDoc
        = "the sum") := by
  refine ⟨⟨rfl, rfl⟩, ⟨rfl, rfl⟩, ⟨rfl, rfl⟩⟩

/-- C8: the overload-reflow pass is idempotent — applying
`groupMethodOverloads` a second time to the output of a first application
changes nothing, for every file (modelled on the parsed class/method
structure the pass manipulates). -/
theorem groupMethodOverloads_idempotent (file : List (List TsMethodNode)) :
    groupMethodOverloads (groupMethodOverloads file) = groupMethodOverloads file := by
  unfold groupMethodOverloads
  rw [List.map_map]
  refine List.map_congr_left (fun a _ => ?_)
  simp only [Function.comp_apply]
  exact processClassMethods_idem a

/-- C9 counterexample: for an extraction set containing only `MyButton`
(superclass `NSView`, which is not in the set), the generated file still
imports `./NSView.ts`, refuting the "if and only if the superclass is present
in the extraction set" claim. -/
theorem superclassImport_not_iff_in_extraction_set :
    ¬ (((buildFileImports soleClassHeader).any (isSuperclassImport soleClassHeader) = true)
        ↔ ([soleClassHeader].any (fun d => d.name = soleClassHeader.superclass) = true)) := by
  decide

/-- C9 amended: every generated file imports the runtime bridge module, and it
imports the superclass's generated module (by the `./<Name>.ts` convention)
precisely when the class has a nonempty superclass name — regardless of
whether that superclass is in the extraction set. -/
theorem buildFileImports_bridge_and_superclass (c : ObjCClassHeader) :
    ((buildFileImports c).any isBridgeImport = true)
      ∧ (((buildFileImports c).any (isSuperclassImport c) = true) ↔ c.superclass ≠ "") := by
  rcases c with ⟨nm, sup, prot⟩
  constructor
  · simp [buildFileImports, isBridgeImport]
  · by_cases h : sup = ""
    · subst h
      simp [buildFileImports, isSuperclassImport]
    · simp [buildFileImports, isSuperclassImport, h]

/-- C10: every generated class — whatever the header contained — carries the
private static readonly `Class` property initialized from the bridge's class
table keyed by the class name, the protected `pointer` property of type `id`,
and a constructor whose body calls `super()` and then assigns `pointer` from
`alloc` sent to the class object followed by the `init` selector. -/
theorem generated_class_core_members (c : ObjCClassRec) :
    ClassMember.propertyDecl "Class" none
        (some ("objc.classes[\"" ++ c.cname ++ "\"]")) true true "private"
        ∈ (buildGeneratedClass c).members
      ∧ ClassMember.propertyDecl "pointer" (some "id") none false false "protected"
        ∈ (buildGeneratedClass c).members
      ∧ ClassMember.ctorDecl
          [ .superCall,
            .assignPointer (.msgSend (.msgSend (.classObj c.cname) "alloc" []) "init" []) ]
        ∈ (buildGeneratedClass c).members := by
  refine ⟨?_, ?_, ?_⟩ <;>
    · show _ ∈ buildClassMembers c
      unfold buildClassMembers
      apply mem_foldl_emitGroupMembers
      simp [classStaticMember, pointerMember, constructorMember]

/-- C4 counterexample: the declaration `- (void)foo:bar` (legal Objective-C,
whose untyped parameter defaults to `id`) is accepted by the signature
parser: neither throw site fires, the reassembled selector is `foo:` with one
colon, yet the parameter regex — which requires a parenthesized type — finds
nothing, so the parameter list is empty and the claimed colon/parameter
equality and the 0-colons-iff-0-parameters equivalence both fail. -/
theorem signature_colon_without_parameter :
    ∃ m, parseMethodSignatureE "- (void)foo:bar" = .ok m
      ∧ colonCount m.mname ≠ m.parameters.length
      ∧ ¬(colonCount m.mname = 0 ↔ m.parameters = []) := by
  refine ⟨{ isClassMethod := false, returnType := "void", mname := "foo:",
            parameters := [], availability := "" }, ?_, by decide, by decide⟩
  rfl

/-- C4 (amended to the declarations of the grammar the parser is written
for): for every rendered declaration `± (ret)base` or
`± (ret)label:(ty)name ...` — sigil `+` or `-`, nonempty word/type texts —
the parse succeeds, the reassembled selector has exactly one colon per
produced parameter, the parameter count matches the declaration's segment
count, and the selector has zero colons iff the parameter list is empty. -/
theorem signatureParser_colon_arity (sigil : Char) (ret base : String)
    (params : List (String × String × String))
    (hsig : sigil = '+' ∨ sigil = '-')
    (hret : typeStr ret) (hbase : wordStr base)
    (hp : ∀ t ∈ params, segWF t) :
    ∃ m, parseMethodSignatureE (String.mk (renderDecl sigil ret base params))
        = .ok m
      ∧ colonCount m.mname = m.parameters.length
      ∧ m.parameters.length = params.length
      ∧ (colonCount m.mname = 0 ↔ m.parameters = []) := by
  have hsg := sigPrep_renderDecl sigil ret base params hsig hbase hp
  rcases params with _ | ⟨t, ts⟩
  · have hrt := returnTypeScan_renderDecl sigil ret base [] hsig hret
    have hmn := methodNameScan_renderDecl_nil sigil ret base hsig hret hbase
    have hps := paramScan_renderDecl sigil ret base [] hsig hret hbase hp
    have hls := labelScan_renderDecl sigil ret base [] hsig hret hbase hp
    simp only [parseMethodSignatureE, hsg, data_mk, hrt, hmn, hps, hls,
      List.map_nil]
    have hjb : jsTrim (String.mk base.data) = String.mk base.data := by
      unfold jsTrim
      rw [data_mk, jsTrimL_all_word hbase.2]
    rw [hjb]
    have hc0 : colonCount (String.mk base.data) = 0 := by
      unfold colonCount
      rw [data_mk]
      exact count_colon_zero hbase.2
    exact ⟨_, rfl, hc0, rfl, ⟨fun _ => rfl, fun _ => hc0⟩⟩
  · have hwf := hp t (List.mem_cons_self t ts)
    have hrt := returnTypeScan_renderDecl sigil ret base (t :: ts) hsig hret
    have hmn := methodNameScan_renderDecl_cons sigil ret base t ts hsig hret hwf.1
    have hps := paramScan_renderDecl sigil ret base (t :: ts) hsig hret hbase hp
    have hls := labelScan_renderDecl sigil ret base (t :: ts) hsig hret hbase hp
    simp only [parseMethodSignatureE, hsg, data_mk, hrt, hmn, hps, hls,
      List.map_cons]
    have hjt1 : jsTrim (String.mk t.1.data) = String.mk t.1.data := by
      unfold jsTrim
      rw [data_mk, jsTrimL_all_word hwf.1.2]
    rw [hjt1]
    have hcomps : ∀ w ∈ List.map (fun t => t.1.data ++ [':']) ts,
        w.count ':' = 1 := by
      intro w hw
      obtain ⟨u, hu, rfl⟩ := List.mem_map.mp hw
      rw [List.count_append,
        count_colon_zero (hp u (List.mem_cons_of_mem t hu)).1.2]
      rfl
    have hcc : colonCount (String.mk t.1.data ++ ":" ++ joinSep ""
        ((List.map (fun t => t.1.data ++ [':']) ts).map String.mk))
        = ts.length + 1 := by
      unfold colonCount
      rw [String.data_append, String.data_append, data_mk]
      rw [List.count_append, List.count_append]
      rw [count_colon_zero hwf.1.2]
      rw [count_colon_joinSep _ hcomps]
      have h1 : ((":" : String).data).count ':' = 1 := rfl
      rw [h1]
      rw [List.length_map]
      omega
    refine ⟨_, rfl, ?_, ?_, ?_⟩
    · show colonCount (String.mk t.1.data ++ ":" ++ joinSep ""
          ((List.map (fun t => t.1.data ++ [':']) ts).map String.mk)) = _
      rw [hcc]
      simp only [List.length_cons, List.length_map]
    · simp only [List.length_cons, List.length_map]
    · constructor
      · intro h0
        rw [show colonCount (String.mk t.1.data ++ ":" ++ joinSep ""
            ((List.map (fun t => t.1.data ++ [':']) ts).map String.mk))
          = ts.length + 1 from hcc] at h0
        exact absurd h0 (Nat.succ_ne_zero ts.length)
      · intro h0
        exact absurd h0 (List.cons_ne_nil _ _)

/-- The colon/parameter invariant instantiated at the two-parameter
declaration `- (void)doIt:(NSString *)title withCount:(NSInteger)c`. -/
theorem signatureParser_colon_arity_witness :
    ∃ m, parseMethodSignatureE (String.mk (renderDecl '-' "void" "doIt" demoSegs))
        = .ok m
      ∧ colonCount m.mname = m.parameters.length
      ∧ m.parameters.length = demoSegs.length
      ∧ (colonCount m.mname = 0 ↔ m.parameters = []) :=
  signatureParser_colon_arity '-' "void" "doIt" demoSegs (Or.inr rfl)
    ⟨by decide, by decide⟩ ⟨by decide, by decide⟩
    (by
      intro t ht
      simp only [demoSegs, List.mem_cons, List.not_mem_nil, or_false] at ht
      rcases ht with rfl | rfl
      · exact ⟨⟨by decide, by decide⟩, ⟨by decide, by decide⟩,
          ⟨by decide, by decide⟩⟩
      · exact ⟨⟨by decide, by decide⟩, ⟨by decide, by decide⟩,
          ⟨by decide, by decide⟩⟩)

end UXKit
